import Mathlib

/-!
Verification of the Srinivas (2015) CRN-to-DSD translation scheme
(`schemes/srinivas2015.ts`).

The scheme is written in the nuskell translation-scheme DSL.  We give a
shallow embedding: domains are records carrying a numeric name issued by a
monotone allocation counter; a complex is a sequence of domains (with strand
breaks) together with an aligned dot-bracket structure list; each DSL module
(`flux`, `prodg`, `srinivas_pgate`, `srinivas_pgate_p1`, `srinivas_rgate`,
`srinivas_rgate_r0`, `reactg`, `rxn`, `main`) becomes a Lean function that
threads the allocation counter explicitly.  Fallible DSL operations (list
indexing, attribute access, destructuring) become `Option`.
-/

namespace Srinivas

/-- Kind of a domain: `short()` issues toeholds, `long()` issues
branch-migration domains. -/
inductive DKind where
  | short : DKind
  | long : DKind
deriving DecidableEq, Repr

/-- A named DSD domain.  `id` is the name issued by the allocation counter,
`comp` marks the Watson-Crick complement (`d*`), `kind` records whether it was
made by `short()` or `long()`, and `hist` records the `tag:'history'`
metadata that `prodg` puts on its fresh long domains. -/
structure Domain where
  id : Nat
  comp : Bool
  kind : DKind
  hist : Bool
deriving DecidableEq, Repr

/-- The complement `d*` of a domain. -/
def Domain.star (d : Domain) : Domain :=
  { d with comp := !d.comp }

/-- The un-starred base of a domain (the name bearer). -/
def Domain.base (d : Domain) : Domain :=
  { d with comp := false }

/-- Fresh plain `long()` domain at counter value `c`. -/
def longD (c : Nat) : Domain := ⟨c, false, DKind.long, false⟩

/-- Fresh plain `short()` domain at counter value `c`. -/
def shortD (c : Nat) : Domain := ⟨c, false, DKind.short, false⟩

/-- Fresh `long(tag:'history')` domain at counter value `c`. -/
def histLongD (c : Nat) : Domain := ⟨c, false, DKind.long, true⟩

/-- One position of a strand list: a domain or a strand break (`+`). -/
inductive SeqItem where
  | dom : Domain → SeqItem
  | brk : SeqItem
deriving DecidableEq, Repr

/-- One position of a dot-bracket structure list: `.`, `(`, `)`, `+`. -/
inductive StItem where
  | unp : StItem
  | opn : StItem
  | cls : StItem
  | brk : StItem
deriving DecidableEq, Repr

/-- A complex (or complex fragment): a domain sequence and a structure list,
plus the attribute environment the nuskell interpreter attaches to values
(only the `f`/`m`/`s` attributes are ever read by this scheme, via
`r[len(r)-1].s` in the product-gate modules). -/
structure CxE where
  seq : List SeqItem
  st : List StItem
  aF : Option Domain
  aM : Option Domain
  aS : Option Domain
deriving DecidableEq, Repr

/-- Complex constructor with an empty attribute environment. -/
def mkCx (seq : List SeqItem) (st : List StItem) : CxE :=
  ⟨seq, st, none, none, none⟩

/-- A formal species: the `f m s` triple of domains produced by the
`formal` class (toehold `f`, branch-migration `m`, toehold `s`). -/
structure Species where
  f : Domain
  m : Domain
  s : Domain
deriving DecidableEq, Repr

/-- The complex value of the `formal` class: strand `f m s`, structure
`. . .`, with `f`, `m`, `s` in the attribute environment. -/
def formal (sp : Species) : CxE :=
  ⟨[SeqItem.dom sp.f, SeqItem.dom sp.m, SeqItem.dom sp.s],
   [StItem.unp, StItem.unp, StItem.unp],
   some sp.f, some sp.m, some sp.s⟩

/-- Concatenation of the domain sequences of a list of fragments (the DSL
splices a list bound to a `~` wildcard by joining the fragments). -/
def seqJoin (l : List CxE) : List SeqItem :=
  (l.map CxE.seq).flatten

/-- Concatenation of the structure lists of a list of fragments. -/
def stJoin (l : List CxE) : List StItem :=
  (l.map CxE.st).flatten

/-- Thread the allocation counter through a map (the DSL's `map` of an
allocating macro over a list). -/
def mapAlloc (f : α → Nat → β × Nat) : List α → Nat → List β × Nat
  | [], c => ([], c)
  | x :: xs, c =>
    let yc := f x c
    let ysc := mapAlloc f xs yc.2
    (yc.1 :: ysc.1, ysc.2)

/-- The DSL's `flip(ts, 3)`: transpose a list of triples into a triple of
lists. -/
def flip3 (ts : List (CxE × CxE × CxE)) : List CxE × List CxE × List CxE :=
  (ts.map (fun t => t.1), ts.map (fun t => t.2.1), ts.map (fun t => t.2.2))

/-- Module `flux(r, p)`: three-way case split on `len(p)`.
`len(p) == 0` gives a list holding one empty complex; `len(p) == 1` gives one
complex `h f | . .` with a fresh `long()` domain `h` and the sole product's
toehold `f`; otherwise one complex `h | .` with a fresh `long()` domain. -/
def flux (r p : List Species) (c : Nat) : List CxE × Nat :=
  match p with
  | [] => ([mkCx [] []], c)
  | [q] =>
    ([mkCx [SeqItem.dom (longD c), SeqItem.dom q.f] [StItem.unp, StItem.unp]], c + 1)
  | _ :: _ :: _ =>
    ([mkCx [SeqItem.dom (longD c)] [StItem.unp]], c + 1)

/-- Macro `prodg(s)`: allocates one fresh `long(tag:'history')` domain `hy`
and returns the three fragments
`hy fy my sy + | ( ( . . +`, `fy* hy* | ) )`, `hy fy | . .`
with `fy/my/sy` the species' `f/m/s` domains. -/
def prodg (sp : Species) (c : Nat) : (CxE × CxE × CxE) × Nat :=
  let hy := histLongD c
  ((mkCx [SeqItem.dom hy, SeqItem.dom sp.f, SeqItem.dom sp.m, SeqItem.dom sp.s, SeqItem.brk]
         [StItem.opn, StItem.opn, StItem.unp, StItem.unp, StItem.brk],
    mkCx [SeqItem.dom sp.f.star, SeqItem.dom hy.star]
         [StItem.cls, StItem.cls],
    mkCx [SeqItem.dom hy, SeqItem.dom sp.f]
         [StItem.unp, StItem.unp]), c + 1)

/-- Module `srinivas_pgate(r, p, hflux)`: the multi-product product gate.
`sa` is the `s` attribute of the last element of the anchor list `r`; the top
complex is `hx fx mx sx + n + m fx* hx* sa* | ( ( . . + ~ + ~ ) ) .` and the
helper is `fx help | . ~`, where `[n, m, help] = flip(map(prodg, tail(p)), 3)`
and `m` is reversed.  Returns `none` if the anchor has no `s` attribute or
`p` is empty. -/
def srinivas_pgate (r : List CxE) (p : List Species) (hflux : Domain) (c : Nat) :
    Option (List CxE) × Nat :=
  match r.getLast?.bind CxE.aS, p with
  | some sa, px :: ptl =>
    let hx := hflux
    let tsc := mapAlloc prodg ptl c
    let nmh := flip3 tsc.1
    let n := nmh.1
    let m := nmh.2.1.reverse
    let help := nmh.2.2
    (some [⟨[SeqItem.dom hx, SeqItem.dom px.f, SeqItem.dom px.m, SeqItem.dom px.s, SeqItem.brk]
             ++ seqJoin n ++ SeqItem.brk :: (seqJoin m
             ++ [SeqItem.dom px.f.star, SeqItem.dom hx.star, SeqItem.dom sa.star]),
           [StItem.opn, StItem.opn, StItem.unp, StItem.unp, StItem.brk]
             ++ stJoin n ++ StItem.brk :: (stJoin m
             ++ [StItem.cls, StItem.cls, StItem.unp]),
           none, none, none⟩,
          ⟨SeqItem.dom px.f :: seqJoin help, StItem.unp :: stJoin help,
           none, none, none⟩], tsc.2)
  | _, _ => (none, c)

/-- Module `srinivas_pgate_p1(r, p, hflux)`: the single-product product gate,
one complex `hx fx mx sx + fx* hx* sa* | ( ( . . + ) ) .`. -/
def srinivas_pgate_p1 (r : List CxE) (p : List Species) (hflux : Domain) (c : Nat) :
    Option (List CxE) × Nat :=
  match r.getLast?.bind CxE.aS, p with
  | some sa, px :: _ =>
    (some [⟨[SeqItem.dom hflux, SeqItem.dom px.f, SeqItem.dom px.m, SeqItem.dom px.s,
             SeqItem.brk, SeqItem.dom px.f.star, SeqItem.dom hflux.star, SeqItem.dom sa.star],
            [StItem.opn, StItem.opn, StItem.unp, StItem.unp,
             StItem.brk, StItem.cls, StItem.cls, StItem.unp],
            none, none, none⟩], c)
  | _, _ => (none, c)

/-- Macro `reactg(r, i)`: the junction fragments for reactant `i`, reading
`r[i].m`, `r[i].s` and `r[i+1].f`; `none` when an index is out of range. -/
def reactg (r : List Species) (i : Nat) : Option (CxE × CxE × CxE) :=
  match r[i]?, r[i + 1]? with
  | some ri, some ri1 =>
    some (mkCx [SeqItem.dom ri.m, SeqItem.dom ri.s, SeqItem.dom ri1.f, SeqItem.brk]
               [StItem.opn, StItem.opn, StItem.opn, StItem.brk],
          mkCx [SeqItem.dom ri1.f.star, SeqItem.dom ri.s.star, SeqItem.dom ri.m.star]
               [StItem.cls, StItem.cls, StItem.cls],
          mkCx [SeqItem.dom ri.m, SeqItem.dom ri.s, SeqItem.dom ri1.f]
               [StItem.unp, StItem.unp, StItem.unp])
  | _, _ => none

/-- The DSL's `map2(reactg, r, range(len(r)-1))`: apply `reactg r` at each
index `0 .. len(r)-2`. -/
def junctions (r : List Species) : Option (List (CxE × CxE × CxE)) :=
  (List.range (r.length - 1)).mapM (reactg r)

/-- Output of a reactant gate module: the complex list together with the
where-bound flux complex `fl` that the interpreter keeps in the value's
environment (read back by `react[0].fl[0].h` in `rxn`). -/
structure RGateOut where
  cxs : List CxE
  fl : CxE
deriving DecidableEq, Repr

/-- Module `srinivas_rgate(r, p)`: the general reactant gate,
`n + mr sr fl + sr* mr* m fr* | ~ + ( ( ~ + ) ) ~ .` plus the release-strand
complex `l | ~`, with `fr = r[0].f`, `mr/sr` the last reactant's `m`/`s`,
`[fl] = flux(r, p)` and `[n, m, l] = flip(map2(reactg, r, range(len(r)-1)), 3)`
with `m` reversed. -/
def srinivas_rgate (r p : List Species) (c : Nat) : Option RGateOut × Nat :=
  match r with
  | [] => (none, c)
  | r0 :: rtl =>
    let fr := r0.f
    let rl := rtl.getLastD r0
    let mr := rl.m
    let sr := rl.s
    match flux (r0 :: rtl) p c with
    | ([fl], c1) =>
      match junctions (r0 :: rtl) with
      | some ts =>
        let nml := flip3 ts
        let n := nml.1
        let m := nml.2.1.reverse
        let l := nml.2.2
        (some ⟨[⟨seqJoin n ++ SeqItem.brk :: SeqItem.dom mr :: SeqItem.dom sr ::
                  (fl.seq ++ SeqItem.brk :: SeqItem.dom sr.star :: SeqItem.dom mr.star ::
                   (seqJoin m ++ [SeqItem.dom fr.star])),
                 stJoin n ++ StItem.brk :: StItem.opn :: StItem.opn ::
                  (fl.st ++ StItem.brk :: StItem.cls :: StItem.cls ::
                   (stJoin m ++ [StItem.unp])),
                 none, none, none⟩,
                ⟨seqJoin l, stJoin l, none, none, none⟩], fl⟩, c1)
      | none => (none, c1)
    | (_, c1) => (none, c1)

/-- Module `srinivas_rgate_r0(r, p)`: the zero-reactant gate.  Allocates a
fresh fuel triple `f = short()`, `m = long()`, `s = short()`, takes
`[fl] = flux(r, p)`, and returns `mr sr fl + sr* mr* fr* | ( ( ~ + ) ) .`
plus the fuel strand `f m s | . . .` (which carries the `f`/`m`/`s`
attributes read back when this gate is used as a product-gate anchor). -/
def srinivas_rgate_r0 (r p : List Species) (c : Nat) : Option RGateOut × Nat :=
  let f := shortD c
  let m := longD (c + 1)
  let s := shortD (c + 2)
  match flux r p (c + 3) with
  | ([fl], c1) =>
    (some ⟨[⟨SeqItem.dom m :: SeqItem.dom s ::
              (fl.seq ++ [SeqItem.brk, SeqItem.dom s.star, SeqItem.dom m.star, SeqItem.dom f.star]),
             StItem.opn :: StItem.opn ::
              (fl.st ++ [StItem.brk, StItem.cls, StItem.cls, StItem.unp]),
             none, none, none⟩,
            ⟨[SeqItem.dom f, SeqItem.dom m, SeqItem.dom s],
             [StItem.unp, StItem.unp, StItem.unp],
             some f, some m, some s⟩], fl⟩, c1)
  | (_, c1) => (none, c1)

/-- A CRN reaction: reactant species, product species, reversibility flag. -/
structure Rxn where
  reactants : List Species
  products : List Species
  reversible : Bool
deriving DecidableEq, Repr

/-- The reactant side of `rxn`: `srinivas_rgate_r0` when `len(reactants) == 0`,
otherwise `srinivas_rgate`. -/
def reactPart (r : Rxn) (c : Nat) : Option RGateOut × Nat :=
  if r.reactants.length == 0 then srinivas_rgate_r0 r.reactants r.products c
  else srinivas_rgate r.reactants r.products c

/-- The anchor list handed to the product-gate modules: the built reactant
gate complexes when `len(reactants) == 0`, the original reactant species
(as `formal` complexes) otherwise. -/
def anchorOf (r : Rxn) (g : RGateOut) : List CxE :=
  if r.reactants.length == 0 then g.cxs else r.reactants.map formal

/-- The history handle `react[0].fl[0].h`: the first domain of the flux
complex kept in the reactant gate's environment. -/
def histOf (g : RGateOut) : Option Domain :=
  match g.fl.seq with
  | SeqItem.dom d :: _ => some d
  | _ => none

/-- The product side of `rxn`: no complex for `len(products) == 0`,
`srinivas_pgate_p1` for one product, `srinivas_pgate` otherwise, always on
the anchor list and the history handle. -/
def prodPart (r : Rxn) (g : RGateOut) (c : Nat) : Option (List CxE) × Nat :=
  if r.products.length == 0 then (some [], c)
  else
    match histOf g with
    | some hist =>
      if r.products.length == 1 then srinivas_pgate_p1 (anchorOf r g) r.products hist c
      else srinivas_pgate (anchorOf r g) r.products hist c
    | none => (none, c)

/-- Module `rxn(r)`: `sum(map(infty, react + produce))` — the reactant-gate
complexes followed by the product-gate complexes (`infty` only marks each
complex as a fuel present in unbounded supply and does not change it). -/
def rxn (r : Rxn) (c : Nat) : Option (List CxE) × Nat :=
  match reactPart r c with
  | (some g, c1) =>
    match prodPart r g c1 with
    | (some produce, c2) => (some (g.cxs ++ produce), c2)
    | (none, c2) => (none, c2)
  | (none, c1) => (none, c1)

/-- Modelled from the spec: `irrev_reactions` is a nuskell built-in whose
implementation is not under `src/`.  Per the spec it expands every reversible
reaction into its forward and backward irreversible instances (forward before
backward) and leaves irreversible reactions unchanged, as a pure rewrite of
the reaction list. -/
def irrev_reactions (crn : List Rxn) : List Rxn :=
  (crn.map (fun r =>
    if r.reversible then
      [Rxn.mk r.reactants r.products false, Rxn.mk r.products r.reactants false]
    else [r])).flatten

/-- Compile a list of (already irreversible) reactions in order, threading
the allocation counter and concatenating the complex lists
(`sum(map(rxn, crn))`). -/
def rxnAll : List Rxn → Nat → Option (List CxE) × Nat
  | [], c => (some [], c)
  | r :: rs, c =>
    match rxn r c with
    | (some xs, c1) =>
      match rxnAll rs c1 with
      | (some ys, c2) => (some (xs ++ ys), c2)
      | (none, c2) => (none, c2)
    | (none, c1) => (none, c1)

/-- Module `main(crn)`: rewrite the CRN with `irrev_reactions`, then compile
every reaction. -/
def main (crn : List Rxn) (c : Nat) : Option (List CxE) × Nat :=
  rxnAll (irrev_reactions crn) c


/-- One step of the structure checker: process one aligned
(sequence item, structure item) pair against a stack of currently open
domains.  Opening pushes the domain; closing pops and demands that the
popped domain is the complement of the closing one; strand breaks must be
marked in both lists at once; any misalignment fails. -/
def step1 (stk : List Domain) : SeqItem → StItem → Option (List Domain)
  | SeqItem.dom _, StItem.unp => some stk
  | SeqItem.dom d, StItem.opn => some (d :: stk)
  | SeqItem.dom d, StItem.cls =>
    match stk with
    | d0 :: stk2 => if d0 = Domain.star d then some stk2 else none
    | [] => none
  | SeqItem.brk, StItem.brk => some stk
  | _, _ => none

/-- Structure checker: walk a domain sequence and a structure list in
lockstep.  Succeeds only when the two lists have the same length, strand
breaks coincide, the bracket nesting is balanced relative to the stack, and
every matched pair is a pair of mutually complementary domains. -/
def runChk : List SeqItem → List StItem → List Domain → Option (List Domain)
  | [], [], stk => some stk
  | a :: sq, b :: st, stk => (step1 stk a b).bind (runChk sq st)
  | _, _, _ => none

/-- A complex is well formed when the checker consumes it completely,
starting and ending with an empty stack of open domains. -/
def wfCx (x : CxE) : Prop :=
  runChk x.seq x.st [] = some []

instance (x : CxE) : Decidable (wfCx x) := by
  unfold wfCx; infer_instance

/-- The domains occurring in a complex (strand breaks dropped). -/
def cxDoms (x : CxE) : List Domain :=
  x.seq.filterMap (fun a => match a with | SeqItem.dom d => some d | SeqItem.brk => none)

/-- The domains occurring in a list of complexes. -/
def outDoms (l : List CxE) : List Domain :=
  (l.map cxDoms).flatten

/-- Complementation is an involution. -/
theorem star_star (d : Domain) : d.star.star = d := by
  cases d; simp [Domain.star]

@[simp] theorem runChk_nil_nil (stk : List Domain) : runChk [] [] stk = some stk := rfl

@[simp] theorem runChk_cons_cons (a : SeqItem) (b : StItem) (sq : List SeqItem)
    (st : List StItem) (stk : List Domain) :
    runChk (a :: sq) (b :: st) stk = (step1 stk a b).bind (runChk sq st) := rfl

@[simp] theorem runChk_nil_cons (b : StItem) (st : List StItem) (stk : List Domain) :
    runChk [] (b :: st) stk = none := rfl

@[simp] theorem runChk_cons_nil (a : SeqItem) (sq : List SeqItem) (stk : List Domain) :
    runChk (a :: sq) [] stk = none := rfl

/-- A successful checker run on a prefix extends to the concatenation. -/
theorem runChk_append {sq1 : List SeqItem} {st1 : List StItem} {stk stk1 : List Domain}
    (sq2 : List SeqItem) (st2 : List StItem)
    (h : runChk sq1 st1 stk = some stk1) :
    runChk (sq1 ++ sq2) (st1 ++ st2) stk = runChk sq2 st2 stk1 := by
  induction sq1 generalizing st1 stk with
  | nil =>
    cases st1 with
    | nil => simp at h; subst h; simp
    | cons b st => simp at h
  | cons a sq ih =>
    cases st1 with
    | nil => simp at h
    | cons b st =>
      simp at h ⊢
      obtain ⟨stk2, h2, h3⟩ := Option.bind_eq_some.mp h
      rw [h2]
      simpa using ih h3

/-- The junction triple `reactg` builds for consecutive reactants `x`, `y`:
`mb sb fa + | ( ( ( +`, then `fa* sb* mb* | ) ) )`, then the release strand
`mb sb fa | . . .` with `mb = x.m`, `sb = x.s`, `fa = y.f`. -/
def reactgT (x y : Species) : CxE × CxE × CxE :=
  (mkCx [SeqItem.dom x.m, SeqItem.dom x.s, SeqItem.dom y.f, SeqItem.brk]
        [StItem.opn, StItem.opn, StItem.opn, StItem.brk],
   mkCx [SeqItem.dom y.f.star, SeqItem.dom x.s.star, SeqItem.dom x.m.star]
        [StItem.cls, StItem.cls, StItem.cls],
   mkCx [SeqItem.dom x.m, SeqItem.dom x.s, SeqItem.dom y.f]
        [StItem.unp, StItem.unp, StItem.unp])

/-- Recursive description of `map2(reactg, r, range(len(r)-1))`: one junction
triple per consecutive pair of reactants. -/
def junctionsSpec : List Species → List (CxE × CxE × CxE)
  | x :: y :: rest => reactgT x y :: junctionsSpec (y :: rest)
  | _ => []

theorem reactg_cons_succ (x : Species) (tl : List Species) (i : Nat) :
    reactg (x :: tl) (i + 1) = reactg tl i := by
  simp [reactg]

theorem reactg_zero (x y : Species) (rest : List Species) :
    reactg (x :: y :: rest) 0 = some (reactgT x y) := by
  simp [reactg, reactgT]

theorem mapM_map_succ (x : Species) (tl : List Species) (l : List Nat) :
    (l.map Nat.succ).mapM (reactg (x :: tl)) = l.mapM (reactg tl) := by
  induction l with
  | nil => rfl
  | cons i l ih =>
    rw [List.map_cons, List.mapM_cons, List.mapM_cons, reactg_cons_succ, ih]

/-- The indexed `map2(reactg, r, range(len(r)-1))` computes exactly the
recursive junction list, and never fails. -/
theorem junctions_eq (r : List Species) : junctions r = some (junctionsSpec r) := by
  induction r with
  | nil => rfl
  | cons x tl ih =>
    cases tl with
    | nil => rfl
    | cons y rest =>
      show (List.range ((x :: y :: rest).length - 1)).mapM (reactg (x :: y :: rest))
          = some (junctionsSpec (x :: y :: rest))
      have hlen : (x :: y :: rest).length - 1 = ((y :: rest).length - 1) + 1 := by
        simp
      rw [hlen, List.range_succ_eq_map, List.mapM_cons, reactg_zero,
        mapM_map_succ x (y :: rest)]
      have ih2 : (List.range ((y :: rest).length - 1)).mapM (reactg (y :: rest))
          = some (junctionsSpec (y :: rest)) := ih
      rw [ih2]
      simp [junctionsSpec]

/-- Joining fragments that are each stack-neutral yields a stack-neutral
run. -/
theorem joinNeutral (frags : List CxE)
    (h : ∀ q ∈ frags, ∀ stk, runChk q.seq q.st stk = some stk) :
    ∀ stk, runChk (seqJoin frags) (stJoin frags) stk = some stk := by
  induction frags with
  | nil => intro stk; simp [seqJoin, stJoin]
  | cons q frags ih =>
    intro stk
    have hq := h q (by simp)
    have hrest : ∀ q2 ∈ frags, ∀ stk2, runChk q2.seq q2.st stk2 = some stk2 := by
      intro q2 hq2 stk2; exact h q2 (by simp [hq2]) stk2
    show runChk (seqJoin (q :: frags)) (stJoin (q :: frags)) stk = some stk
    have e1 : seqJoin (q :: frags) = q.seq ++ seqJoin frags := by
      simp [seqJoin]
    have e2 : stJoin (q :: frags) = q.st ++ stJoin frags := by
      simp [stJoin]
    rw [e1, e2, runChk_append _ _ (hq stk)]
    exact ih hrest stk

/-- Chain lemma: fragments that push a block of domains, followed by a
stack-neutral middle, followed by the reversed matching popping fragments,
make a stack-neutral run. -/
theorem pushPopChain (L : List (CxE × CxE))
    (hpair : ∀ q ∈ L, ∃ ds,
      (∀ stk, runChk q.1.seq q.1.st stk = some (ds ++ stk)) ∧
      (∀ stk, runChk q.2.seq q.2.st (ds ++ stk) = some stk))
    (midSq : List SeqItem) (midSt : List StItem)
    (hmid : ∀ stk, runChk midSq midSt stk = some stk) :
    ∀ stk, runChk (seqJoin (L.map Prod.fst) ++ midSq ++ seqJoin ((L.map Prod.snd).reverse))
        (stJoin (L.map Prod.fst) ++ midSt ++ stJoin ((L.map Prod.snd).reverse)) stk
      = some stk := by
  induction L with
  | nil => intro stk; simpa [seqJoin, stJoin] using hmid stk
  | cons q L ih =>
    intro stk
    obtain ⟨ds, hpush, hpop⟩ := hpair q (by simp)
    have hrest : ∀ q2 ∈ L, ∃ ds2,
        (∀ stk2, runChk q2.1.seq q2.1.st stk2 = some (ds2 ++ stk2)) ∧
        (∀ stk2, runChk q2.2.seq q2.2.st (ds2 ++ stk2) = some stk2) := by
      intro q2 hq2; exact hpair q2 (by simp [hq2])
    have inner := ih hrest (ds ++ stk)
    have e1 : seqJoin ((q :: L).map Prod.fst) = q.1.seq ++ seqJoin (L.map Prod.fst) := by
      simp [seqJoin]
    have e2 : stJoin ((q :: L).map Prod.fst) = q.1.st ++ stJoin (L.map Prod.fst) := by
      simp [stJoin]
    have e3 : seqJoin (((q :: L).map Prod.snd).reverse)
        = seqJoin ((L.map Prod.snd).reverse) ++ q.2.seq := by
      simp [seqJoin]
    have e4 : stJoin (((q :: L).map Prod.snd).reverse)
        = stJoin ((L.map Prod.snd).reverse) ++ q.2.st := by
      simp [stJoin]
    rw [e1, e2, e3, e4]
    have assocSq : q.1.seq ++ seqJoin (L.map Prod.fst) ++ midSq
          ++ (seqJoin ((L.map Prod.snd).reverse) ++ q.2.seq)
        = q.1.seq ++ ((seqJoin (L.map Prod.fst) ++ midSq ++ seqJoin ((L.map Prod.snd).reverse))
          ++ q.2.seq) := by
      simp [List.append_assoc]
    have assocSt : q.1.st ++ stJoin (L.map Prod.fst) ++ midSt
          ++ (stJoin ((L.map Prod.snd).reverse) ++ q.2.st)
        = q.1.st ++ ((stJoin (L.map Prod.fst) ++ midSt ++ stJoin ((L.map Prod.snd).reverse))
          ++ q.2.st) := by
      simp [List.append_assoc]
    rw [assocSq, assocSt, runChk_append _ _ (hpush stk),
      runChk_append _ _ inner]
    exact hpop stk

theorem prodg_push (sp : Species) (cc : Nat) (stk : List Domain) :
    runChk (prodg sp cc).1.1.seq (prodg sp cc).1.1.st stk
      = some (sp.f :: histLongD cc :: stk) := by
  simp [prodg, mkCx, step1]

theorem prodg_pop (sp : Species) (cc : Nat) (stk : List Domain) :
    runChk (prodg sp cc).1.2.1.seq (prodg sp cc).1.2.1.st (sp.f :: histLongD cc :: stk)
      = some stk := by
  simp [prodg, mkCx, step1, star_star]

theorem prodg_help_neutral (sp : Species) (cc : Nat) (stk : List Domain) :
    runChk (prodg sp cc).1.2.2.seq (prodg sp cc).1.2.2.st stk = some stk := by
  simp [prodg, mkCx, step1]

theorem reactgT_push (x y : Species) (stk : List Domain) :
    runChk (reactgT x y).1.seq (reactgT x y).1.st stk
      = some (y.f :: x.s :: x.m :: stk) := by
  simp [reactgT, mkCx, step1]

theorem reactgT_pop (x y : Species) (stk : List Domain) :
    runChk (reactgT x y).2.1.seq (reactgT x y).2.1.st (y.f :: x.s :: x.m :: stk)
      = some stk := by
  simp [reactgT, mkCx, step1, star_star]

theorem reactgT_rel_neutral (x y : Species) (stk : List Domain) :
    runChk (reactgT x y).2.2.seq (reactgT x y).2.2.st stk = some stk := by
  simp [reactgT, mkCx, step1]

theorem mapAlloc_prodg_mem (ptl : List Species) (c : Nat) :
    ∀ t ∈ (mapAlloc prodg ptl c).1, ∃ sp cc, t = (prodg sp cc).1 := by
  induction ptl generalizing c with
  | nil => intro t ht; simp [mapAlloc] at ht
  | cons x rest ih =>
    intro t ht
    simp [mapAlloc] at ht
    rcases ht with h | h
    · exact ⟨x, c, h⟩
    · exact ih (prodg x c).2 t h

theorem junctionsSpec_mem (r : List Species) :
    ∀ t ∈ junctionsSpec r, ∃ x y, t = reactgT x y := by
  induction r with
  | nil => intro t ht; simp [junctionsSpec] at ht
  | cons x tl ih =>
    cases tl with
    | nil => intro t ht; simp [junctionsSpec] at ht
    | cons y rest =>
      intro t ht
      simp [junctionsSpec] at ht
      rcases ht with h | h
      · exact ⟨x, y, h⟩
      · exact ih t h

/-- The `n + m`-reversed chain of `prodg` fragments in `srinivas_pgate` is
stack-neutral: every history/toehold pair opened in the `n` block is closed,
in reverse order, by the corresponding complement fragment of the `m`
block. -/
theorem prodg_chain_neutral (ptl : List Species) (c : Nat) :
    ∀ stk, runChk
      (seqJoin ((mapAlloc prodg ptl c).1.map (fun t => t.1)) ++ SeqItem.brk ::
        seqJoin (((mapAlloc prodg ptl c).1.map (fun t => t.2.1)).reverse))
      (stJoin ((mapAlloc prodg ptl c).1.map (fun t => t.1)) ++ StItem.brk ::
        stJoin (((mapAlloc prodg ptl c).1.map (fun t => t.2.1)).reverse)) stk
      = some stk := by
  have hpair : ∀ q ∈ (mapAlloc prodg ptl c).1.map (fun t => (t.1, t.2.1)), ∃ ds,
      (∀ stk, runChk q.1.seq q.1.st stk = some (ds ++ stk)) ∧
      (∀ stk, runChk q.2.seq q.2.st (ds ++ stk) = some stk) := by
    intro q hq
    obtain ⟨t, ht, hqt⟩ := List.mem_map.mp hq
    obtain ⟨sp, cc, rfl⟩ := mapAlloc_prodg_mem ptl c t ht
    refine ⟨[sp.f, histLongD cc], ?_, ?_⟩
    · intro stk; rw [← hqt]; exact prodg_push sp cc stk
    · intro stk; rw [← hqt]; exact prodg_pop sp cc stk
  have h := pushPopChain ((mapAlloc prodg ptl c).1.map (fun t => (t.1, t.2.1))) hpair
    [SeqItem.brk] [StItem.brk] (fun stk => rfl)
  intro stk
  have h2 := h stk
  simpa [List.map_map, Function.comp, List.append_assoc] using h2

/-- The junction chain of `srinivas_rgate` is stack-neutral around any
stack-neutral middle segment. -/
theorem reactg_chain_neutral (r : List Species) (midSq : List SeqItem)
    (midSt : List StItem) (hmid : ∀ stk, runChk midSq midSt stk = some stk) :
    ∀ stk, runChk
      (seqJoin ((junctionsSpec r).map (fun t => t.1)) ++ midSq ++
        seqJoin (((junctionsSpec r).map (fun t => t.2.1)).reverse))
      (stJoin ((junctionsSpec r).map (fun t => t.1)) ++ midSt ++
        stJoin (((junctionsSpec r).map (fun t => t.2.1)).reverse)) stk
      = some stk := by
  have hpair : ∀ q ∈ (junctionsSpec r).map (fun t => (t.1, t.2.1)), ∃ ds,
      (∀ stk, runChk q.1.seq q.1.st stk = some (ds ++ stk)) ∧
      (∀ stk, runChk q.2.seq q.2.st (ds ++ stk) = some stk) := by
    intro q hq
    obtain ⟨t, ht, hqt⟩ := List.mem_map.mp hq
    obtain ⟨x, y, rfl⟩ := junctionsSpec_mem r t ht
    refine ⟨[y.f, x.s, x.m], ?_, ?_⟩
    · intro stk; rw [← hqt]; exact reactgT_push x y stk
    · intro stk; rw [← hqt]; exact reactgT_pop x y stk
  have h := pushPopChain ((junctionsSpec r).map (fun t => (t.1, t.2.1))) hpair
    midSq midSt hmid
  intro stk
  have h2 := h stk
  simpa [List.map_map, Function.comp] using h2

/-- The single flux complex and the final counter of a `flux` call. -/
def flCx (r p : List Species) (c : Nat) : CxE :=
  (flux r p c).1.headD (mkCx [] [])

/-- The flux module always returns a one-element complex list. -/
theorem flux_eq (r p : List Species) (c : Nat) :
    flux r p c = ([flCx r p c], (flux r p c).2) := by
  cases p with
  | nil => rfl
  | cons q tl => cases tl <;> rfl

/-- The flux complex is entirely unpaired, hence stack-neutral. -/
theorem flCx_neutral (r p : List Species) (c : Nat) :
    ∀ stk, runChk (flCx r p c).seq (flCx r p c).st stk = some stk := by
  intro stk
  cases p with
  | nil => simp [flCx, flux, mkCx, step1]
  | cons q tl => cases tl <;> simp [flCx, flux, mkCx, step1]

/-- The output of `srinivas_rgate` on a non-empty reactant list, expressed
through the recursive junction list: the core complex, the release-strand
complex, and the flux complex kept in the environment. -/
def rgateOutSpec (r0 : Species) (rtl : List Species) (fl : CxE) : RGateOut :=
  ⟨[⟨seqJoin ((junctionsSpec (r0 :: rtl)).map (fun t => t.1)) ++ SeqItem.brk ::
      SeqItem.dom (rtl.getLastD r0).m :: SeqItem.dom (rtl.getLastD r0).s ::
      (fl.seq ++ SeqItem.brk :: SeqItem.dom (rtl.getLastD r0).s.star ::
        SeqItem.dom (rtl.getLastD r0).m.star ::
        (seqJoin (((junctionsSpec (r0 :: rtl)).map (fun t => t.2.1)).reverse)
          ++ [SeqItem.dom r0.f.star])),
     stJoin ((junctionsSpec (r0 :: rtl)).map (fun t => t.1)) ++ StItem.brk ::
      StItem.opn :: StItem.opn ::
      (fl.st ++ StItem.brk :: StItem.cls :: StItem.cls ::
        (stJoin (((junctionsSpec (r0 :: rtl)).map (fun t => t.2.1)).reverse)
          ++ [StItem.unp])),
     none, none, none⟩,
    ⟨seqJoin ((junctionsSpec (r0 :: rtl)).map (fun t => t.2.2)),
     stJoin ((junctionsSpec (r0 :: rtl)).map (fun t => t.2.2)),
     none, none, none⟩], fl⟩

theorem srinivas_rgate_eq (r0 : Species) (rtl p : List Species) (c : Nat) :
    srinivas_rgate (r0 :: rtl) p c
      = (some (rgateOutSpec r0 rtl (flCx (r0 :: rtl) p c)), (flux (r0 :: rtl) p c).2) := by
  cases p with
  | nil =>
    simp [srinivas_rgate, flux, flCx, junctions_eq, rgateOutSpec, flip3, mkCx]
  | cons q tl =>
    cases tl <;>
      simp [srinivas_rgate, flux, flCx, junctions_eq, rgateOutSpec, flip3, mkCx]

/-- The output of `srinivas_rgate_r0`: the core complex built on the fresh
fuel triple, and the fuel strand carrying the `f`/`m`/`s` attributes. -/
def rgateR0OutSpec (c : Nat) (fl : CxE) : RGateOut :=
  ⟨[⟨SeqItem.dom (longD (c + 1)) :: SeqItem.dom (shortD (c + 2)) ::
      (fl.seq ++ [SeqItem.brk, SeqItem.dom (shortD (c + 2)).star,
        SeqItem.dom (longD (c + 1)).star, SeqItem.dom (shortD c).star]),
     StItem.opn :: StItem.opn ::
      (fl.st ++ [StItem.brk, StItem.cls, StItem.cls, StItem.unp]),
     none, none, none⟩,
    ⟨[SeqItem.dom (shortD c), SeqItem.dom (longD (c + 1)), SeqItem.dom (shortD (c + 2))],
     [StItem.unp, StItem.unp, StItem.unp],
     some (shortD c), some (longD (c + 1)), some (shortD (c + 2))⟩], fl⟩

theorem srinivas_rgate_r0_eq (r p : List Species) (c : Nat) :
    srinivas_rgate_r0 r p c
      = (some (rgateR0OutSpec c (flCx r p (c + 3))), (flux r p (c + 3)).2) := by
  cases p with
  | nil => simp [srinivas_rgate_r0, flux, flCx, rgateR0OutSpec, mkCx]
  | cons q tl => cases tl <;> simp [srinivas_rgate_r0, flux, flCx, rgateR0OutSpec, mkCx]

/-- The top complex of `srinivas_pgate`. -/
def pgTop (sa : Domain) (px : Species) (ptl : List Species) (hf : Domain) (c : Nat) : CxE :=
  ⟨[SeqItem.dom hf, SeqItem.dom px.f, SeqItem.dom px.m, SeqItem.dom px.s, SeqItem.brk]
     ++ seqJoin ((mapAlloc prodg ptl c).1.map (fun t => t.1)) ++ SeqItem.brk ::
      (seqJoin (((mapAlloc prodg ptl c).1.map (fun t => t.2.1)).reverse)
        ++ [SeqItem.dom px.f.star, SeqItem.dom hf.star, SeqItem.dom sa.star]),
   [StItem.opn, StItem.opn, StItem.unp, StItem.unp, StItem.brk]
     ++ stJoin ((mapAlloc prodg ptl c).1.map (fun t => t.1)) ++ StItem.brk ::
      (stJoin (((mapAlloc prodg ptl c).1.map (fun t => t.2.1)).reverse)
        ++ [StItem.cls, StItem.cls, StItem.unp]),
   none, none, none⟩

/-- The helper complex of `srinivas_pgate` (`fx help | . ~`). -/
def pgHelp (px : Species) (ptl : List Species) (c : Nat) : CxE :=
  ⟨SeqItem.dom px.f :: seqJoin ((mapAlloc prodg ptl c).1.map (fun t => t.2.2)),
   StItem.unp :: stJoin ((mapAlloc prodg ptl c).1.map (fun t => t.2.2)),
   none, none, none⟩

theorem srinivas_pgate_eq (r : List CxE) (sa : Domain) (px : Species)
    (ptl : List Species) (hf : Domain) (c : Nat)
    (hsa : r.getLast?.bind CxE.aS = some sa) :
    srinivas_pgate r (px :: ptl) hf c
      = (some [pgTop sa px ptl hf c, pgHelp px ptl c], (mapAlloc prodg ptl c).2) := by
  simp [srinivas_pgate, hsa, pgTop, pgHelp, flip3]

/-- The single complex of `srinivas_pgate_p1`. -/
def p1Cx (sa : Domain) (px : Species) (hf : Domain) : CxE :=
  ⟨[SeqItem.dom hf, SeqItem.dom px.f, SeqItem.dom px.m, SeqItem.dom px.s,
    SeqItem.brk, SeqItem.dom px.f.star, SeqItem.dom hf.star, SeqItem.dom sa.star],
   [StItem.opn, StItem.opn, StItem.unp, StItem.unp,
    StItem.brk, StItem.cls, StItem.cls, StItem.unp],
   none, none, none⟩

theorem srinivas_pgate_p1_eq (r : List CxE) (sa : Domain) (px : Species)
    (ptl : List Species) (hf : Domain) (c : Nat)
    (hsa : r.getLast?.bind CxE.aS = some sa) :
    srinivas_pgate_p1 r (px :: ptl) hf c = (some [p1Cx sa px hf], c) := by
  simp [srinivas_pgate_p1, hsa, p1Cx]

theorem rgate_mid_neutral (mr sr : Domain) (fl : CxE)
    (hfl : ∀ stk, runChk fl.seq fl.st stk = some stk) :
    ∀ stk, runChk
      (SeqItem.brk :: SeqItem.dom mr :: SeqItem.dom sr ::
        (fl.seq ++ [SeqItem.brk, SeqItem.dom sr.star, SeqItem.dom mr.star]))
      (StItem.brk :: StItem.opn :: StItem.opn ::
        (fl.st ++ [StItem.brk, StItem.cls, StItem.cls])) stk = some stk := by
  intro stk
  simp [step1]
  rw [runChk_append _ _ (hfl (sr :: mr :: stk))]
  simp [step1, star_star]

/-- Every complex output by `srinivas_rgate` on a non-empty reactant list is
well formed. -/
theorem wf_rgateOutSpec (r0 : Species) (rtl : List Species) (fl : CxE)
    (hfl : ∀ stk, runChk fl.seq fl.st stk = some stk) :
    ∀ x ∈ (rgateOutSpec r0 rtl fl).cxs, wfCx x := by
  intro x hx
  simp [rgateOutSpec] at hx
  rcases hx with h | h
  · subst h
    unfold wfCx
    have hmid := rgate_mid_neutral (rtl.getLastD r0).m (rtl.getLastD r0).s fl hfl
    have hchain := reactg_chain_neutral (r0 :: rtl) _ _ hmid
    have hfull := runChk_append [SeqItem.dom r0.f.star] [StItem.unp] (hchain [])
    simp only [step1, runChk_cons_cons, runChk_nil_nil, Option.bind] at hfull
    simp only [List.append_assoc, List.cons_append, List.nil_append,
      List.getLastD_eq_getLast?] at hfull ⊢
    exact hfull
  · subst h
    unfold wfCx
    apply joinNeutral
    intro q hq
    obtain ⟨tr, htr, rfl⟩ := List.mem_map.mp hq
    obtain ⟨x, y, rfl⟩ := junctionsSpec_mem _ tr htr
    exact reactgT_rel_neutral x y

/-- Every complex output by `srinivas_rgate_r0` is well formed. -/
theorem wf_rgateR0OutSpec (c : Nat) (fl : CxE)
    (hfl : ∀ stk, runChk fl.seq fl.st stk = some stk) :
    ∀ x ∈ (rgateR0OutSpec c fl).cxs, wfCx x := by
  intro x hx
  simp [rgateR0OutSpec] at hx
  rcases hx with h | h
  · subst h
    unfold wfCx
    simp [step1]
    rw [runChk_append _ _ (hfl (shortD (c + 2) :: longD (c + 1) :: []))]
    simp [step1, star_star]
  · subst h
    unfold wfCx
    simp [step1]

/-- The top complex of `srinivas_pgate` is well formed. -/
theorem wf_pgTop (sa : Domain) (px : Species) (ptl : List Species) (hf : Domain)
    (c : Nat) : wfCx (pgTop sa px ptl hf c) := by
  unfold wfCx pgTop
  have hpre : runChk
      [SeqItem.dom hf, SeqItem.dom px.f, SeqItem.dom px.m, SeqItem.dom px.s, SeqItem.brk]
      [StItem.opn, StItem.opn, StItem.unp, StItem.unp, StItem.brk] []
      = some [px.f, hf] := by
    simp [step1]
  have hch := prodg_chain_neutral ptl c [px.f, hf]
  have h3 := runChk_append
    [SeqItem.dom px.f.star, SeqItem.dom hf.star, SeqItem.dom sa.star]
    [StItem.cls, StItem.cls, StItem.unp] hch
  simp only [step1, runChk_cons_cons, runChk_nil_nil, star_star, Option.bind,
    if_pos] at h3
  have h2 := runChk_append
    ((seqJoin ((mapAlloc prodg ptl c).1.map (fun t => t.1)) ++ SeqItem.brk ::
        seqJoin (((mapAlloc prodg ptl c).1.map (fun t => t.2.1)).reverse))
      ++ [SeqItem.dom px.f.star, SeqItem.dom hf.star, SeqItem.dom sa.star])
    ((stJoin ((mapAlloc prodg ptl c).1.map (fun t => t.1)) ++ StItem.brk ::
        stJoin (((mapAlloc prodg ptl c).1.map (fun t => t.2.1)).reverse))
      ++ [StItem.cls, StItem.cls, StItem.unp]) hpre
  rw [h3] at h2
  simp only [List.append_assoc, List.cons_append] at h2 ⊢
  exact h2

/-- The helper complex of `srinivas_pgate` is well formed. -/
theorem wf_pgHelp (px : Species) (ptl : List Species) (c : Nat) :
    wfCx (pgHelp px ptl c) := by
  unfold wfCx pgHelp
  simp [step1]
  apply joinNeutral
  intro q hq
  obtain ⟨tr, htr, rfl⟩ := List.mem_map.mp hq
  obtain ⟨sp, cc, rfl⟩ := mapAlloc_prodg_mem ptl c tr htr
  exact prodg_help_neutral sp cc

/-- The complex of `srinivas_pgate_p1` is well formed. -/
theorem wf_p1Cx (sa : Domain) (px : Species) (hf : Domain) : wfCx (p1Cx sa px hf) := by
  unfold wfCx p1Cx
  simp [step1, star_star]

theorem anchor_formal_aS (r0 : Species) (rtl : List Species) :
    ((r0 :: rtl).map formal).getLast?.bind CxE.aS = some ((rtl.getLastD r0).s) := by
  induction rtl generalizing r0 with
  | nil => rfl
  | cons y rest ih =>
    rw [List.map_cons, List.map_cons, List.getLast?_cons_cons, ← List.map_cons,
      ih y, List.getLastD_cons]

theorem anchor_r0_aS (c : Nat) (fl : CxE) :
    (rgateR0OutSpec c fl).cxs.getLast?.bind CxE.aS = some (shortD (c + 2)) := rfl

theorem histOf_flCx (g : RGateOut) (r p : List Species) (c : Nat)
    (hfl : g.fl = flCx r p c) (hp : p ≠ []) :
    histOf g = some (longD c) := by
  cases p with
  | nil => exact absurd rfl hp
  | cons q tl =>
    cases tl <;> simp [histOf, hfl, flCx, flux, mkCx]

theorem mapAlloc_prodg_ctr (ptl : List Species) (c : Nat) :
    (mapAlloc prodg ptl c).2 = c + ptl.length := by
  induction ptl generalizing c with
  | nil => simp [mapAlloc]
  | cons x rest ih =>
    simp [mapAlloc, prodg, ih]
    omega

/-- Reaction compiler, case 0 reactants / 0 products. -/
theorem rxn_eq_nil_nil (rev : Bool) (c : Nat) :
    rxn ⟨[], [], rev⟩ c
      = (some (rgateR0OutSpec c (flCx [] [] (c + 3))).cxs, c + 3) := by
  unfold rxn reactPart prodPart
  simp [srinivas_rgate_r0_eq, flux]

/-- Reaction compiler, case 0 reactants / 1 product. -/
theorem rxn_eq_nil_one (px : Species) (rev : Bool) (c : Nat) :
    rxn ⟨[], [px], rev⟩ c
      = (some ((rgateR0OutSpec c (flCx [] [px] (c + 3))).cxs
          ++ [p1Cx (shortD (c + 2)) px (longD (c + 3))]), c + 4) := by
  unfold rxn reactPart prodPart
  rw [show (Rxn.mk [] [px] rev).reactants = [] from rfl]
  simp only [List.length_nil, beq_self_eq_true, if_true]
  rw [srinivas_rgate_r0_eq]
  have hh : histOf (rgateR0OutSpec c (flCx [] [px] (c + 3))) = some (longD (c + 3)) :=
    histOf_flCx _ [] [px] (c + 3) rfl (by simp)
  simp only [hh, anchorOf]
  simp [srinivas_pgate_p1_eq _ (shortD (c + 2)) px [] (longD (c + 3)) _ (anchor_r0_aS c _),
    flux]

/-- Reaction compiler, case 0 reactants / 2 or more products. -/
theorem rxn_eq_nil_many (px py : Species) (ptl2 : List Species) (rev : Bool) (c : Nat) :
    rxn ⟨[], px :: py :: ptl2, rev⟩ c
      = (some ((rgateR0OutSpec c (flCx [] (px :: py :: ptl2) (c + 3))).cxs
          ++ [pgTop (shortD (c + 2)) px (py :: ptl2) (longD (c + 3)) (c + 4),
              pgHelp px (py :: ptl2) (c + 4)]),
         (c + 4) + (py :: ptl2).length) := by
  unfold rxn reactPart prodPart
  rw [show (Rxn.mk [] (px :: py :: ptl2) rev).reactants = [] from rfl]
  simp only [List.length_nil, beq_self_eq_true, if_true]
  rw [srinivas_rgate_r0_eq]
  have hh : histOf (rgateR0OutSpec c (flCx [] (px :: py :: ptl2) (c + 3)))
      = some (longD (c + 3)) :=
    histOf_flCx _ [] (px :: py :: ptl2) (c + 3) rfl (by simp)
  simp only [hh, anchorOf]
  simp [srinivas_pgate_eq _ (shortD (c + 2)) px (py :: ptl2) (longD (c + 3)) _
    (anchor_r0_aS c _), flux, mapAlloc_prodg_ctr]

/-- Reaction compiler, case 1 or more reactants / 0 products. -/
theorem rxn_eq_cons_nil (r0 : Species) (rtl : List Species) (rev : Bool) (c : Nat) :
    rxn ⟨r0 :: rtl, [], rev⟩ c
      = (some (rgateOutSpec r0 rtl (flCx (r0 :: rtl) [] c)).cxs, c) := by
  unfold rxn reactPart prodPart
  simp [srinivas_rgate_eq, flux]

/-- Reaction compiler, case 1 or more reactants / 1 product. -/
theorem rxn_eq_cons_one (r0 : Species) (rtl : List Species) (px : Species)
    (rev : Bool) (c : Nat) :
    rxn ⟨r0 :: rtl, [px], rev⟩ c
      = (some ((rgateOutSpec r0 rtl (flCx (r0 :: rtl) [px] c)).cxs
          ++ [p1Cx (rtl.getLastD r0).s px (longD c)]), c + 1) := by
  unfold rxn reactPart prodPart
  rw [show (Rxn.mk (r0 :: rtl) [px] rev).reactants = r0 :: rtl from rfl]
  simp only [List.length_cons]
  rw [show ((rtl.length + 1 == 0) = false) from by simp]
  simp only [if_false, Bool.false_eq_true]
  rw [srinivas_rgate_eq]
  have hh : histOf (rgateOutSpec r0 rtl (flCx (r0 :: rtl) [px] c)) = some (longD c) :=
    histOf_flCx _ (r0 :: rtl) [px] c rfl (by simp)
  simp only [hh, anchorOf]
  have hp1 := srinivas_pgate_p1_eq ((r0 :: rtl).map formal) ((rtl.getLastD r0).s)
    px [] (longD c) (c + 1) (anchor_formal_aS r0 rtl)
  rw [List.map_cons] at hp1
  simp [flux, hp1, List.getLastD_eq_getLast?]

/-- Reaction compiler, case 1 or more reactants / 2 or more products. -/
theorem rxn_eq_cons_many (r0 : Species) (rtl : List Species) (px py : Species)
    (ptl2 : List Species) (rev : Bool) (c : Nat) :
    rxn ⟨r0 :: rtl, px :: py :: ptl2, rev⟩ c
      = (some ((rgateOutSpec r0 rtl (flCx (r0 :: rtl) (px :: py :: ptl2) c)).cxs
          ++ [pgTop ((rtl.getLastD r0).s) px (py :: ptl2) (longD c) (c + 1),
              pgHelp px (py :: ptl2) (c + 1)]),
         (c + 1) + (py :: ptl2).length) := by
  unfold rxn reactPart prodPart
  rw [show (Rxn.mk (r0 :: rtl) (px :: py :: ptl2) rev).reactants = r0 :: rtl from rfl]
  simp only [List.length_cons]
  rw [show ((rtl.length + 1 == 0) = false) from by simp]
  simp only [if_false, Bool.false_eq_true]
  rw [srinivas_rgate_eq]
  have hh : histOf (rgateOutSpec r0 rtl (flCx (r0 :: rtl) (px :: py :: ptl2) c))
      = some (longD c) :=
    histOf_flCx _ (r0 :: rtl) (px :: py :: ptl2) c rfl (by simp)
  simp only [hh, anchorOf]
  have hpg := srinivas_pgate_eq ((r0 :: rtl).map formal) ((rtl.getLastD r0).s)
    px (py :: ptl2) (longD c) (c + 1) (anchor_formal_aS r0 rtl)
  rw [List.map_cons] at hpg
  simp [flux, hpg, List.getLastD_eq_getLast?, mapAlloc_prodg_ctr]

/-- Every complex emitted by the reaction compiler is well formed. -/
theorem rxn_wf (r : Rxn) (c : Nat) (out : List CxE) (c2 : Nat)
    (h : rxn r c = (some out, c2)) : ∀ x ∈ out, wfCx x := by
  obtain ⟨reactants, products, rev⟩ := r
  cases reactants with
  | nil =>
    cases products with
    | nil =>
      rw [rxn_eq_nil_nil] at h
      simp only [Prod.mk.injEq, Option.some.injEq] at h
      obtain ⟨h1, h2⟩ := h
      subst h1
      exact wf_rgateR0OutSpec c _ (flCx_neutral [] [] (c + 3))
    | cons px ptl =>
      cases ptl with
      | nil =>
        rw [rxn_eq_nil_one] at h
        simp only [Prod.mk.injEq, Option.some.injEq] at h
        obtain ⟨h1, h2⟩ := h
        subst h1
        intro x hx
        rcases List.mem_append.mp hx with hx | hx
        · exact wf_rgateR0OutSpec c _ (flCx_neutral [] [px] (c + 3)) x hx
        · simp only [List.mem_singleton] at hx
          subst hx
          exact wf_p1Cx _ _ _
      | cons py ptl2 =>
        rw [rxn_eq_nil_many] at h
        simp only [Prod.mk.injEq, Option.some.injEq] at h
        obtain ⟨h1, h2⟩ := h
        subst h1
        intro x hx
        rcases List.mem_append.mp hx with hx | hx
        · exact wf_rgateR0OutSpec c _ (flCx_neutral [] (px :: py :: ptl2) (c + 3)) x hx
        · simp only [List.mem_cons, List.mem_singleton] at hx
          rcases hx with hx | hx | hx
          · subst hx; exact wf_pgTop _ _ _ _ _
          · subst hx; exact wf_pgHelp _ _ _
          · simp at hx
  | cons r0 rtl =>
    cases products with
    | nil =>
      rw [rxn_eq_cons_nil] at h
      simp only [Prod.mk.injEq, Option.some.injEq] at h
      obtain ⟨h1, h2⟩ := h
      subst h1
      exact wf_rgateOutSpec r0 rtl _ (flCx_neutral (r0 :: rtl) [] c)
    | cons px ptl =>
      cases ptl with
      | nil =>
        rw [rxn_eq_cons_one] at h
        simp only [Prod.mk.injEq, Option.some.injEq] at h
        obtain ⟨h1, h2⟩ := h
        subst h1
        intro x hx
        rcases List.mem_append.mp hx with hx | hx
        · exact wf_rgateOutSpec r0 rtl _ (flCx_neutral (r0 :: rtl) [px] c) x hx
        · simp only [List.mem_singleton] at hx
          subst hx
          exact wf_p1Cx _ _ _
      | cons py ptl2 =>
        rw [rxn_eq_cons_many] at h
        simp only [Prod.mk.injEq, Option.some.injEq] at h
        obtain ⟨h1, h2⟩ := h
        subst h1
        intro x hx
        rcases List.mem_append.mp hx with hx | hx
        · exact wf_rgateOutSpec r0 rtl _ (flCx_neutral (r0 :: rtl) (px :: py :: ptl2) c) x hx
        · simp only [List.mem_cons, List.mem_singleton] at hx
          rcases hx with hx | hx | hx
          · subst hx; exact wf_pgTop _ _ _ _ _
          · subst hx; exact wf_pgHelp _ _ _
          · simp at hx

/-- Every complex emitted when compiling a reaction list is well formed. -/
theorem rxnAll_wf (rs : List Rxn) (c : Nat) (out : List CxE) (c2 : Nat)
    (h : rxnAll rs c = (some out, c2)) : ∀ x ∈ out, wfCx x := by
  induction rs generalizing c out c2 with
  | nil =>
    simp only [rxnAll, Prod.mk.injEq, Option.some.injEq] at h
    obtain ⟨h1, h2⟩ := h
    subst h1
    simp
  | cons r rs ih =>
    simp only [rxnAll] at h
    split at h
    next xs c1 heq =>
      split at h
      next ys cf heq2 =>
        simp only [Prod.mk.injEq, Option.some.injEq] at h
        obtain ⟨h1, h2⟩ := h
        subst h1
        intro x hx
        rcases List.mem_append.mp hx with hx | hx
        · exact rxn_wf r c xs c1 heq x hx
        · exact ih c1 ys cf heq2 x hx
      next cf heq2 => simp at h
    next c1 heq => simp at h

/-- Every complex emitted by the CRN compiler is well formed. -/
theorem main_wf (crn : List Rxn) (c : Nat) (out : List CxE) (c2 : Nat)
    (h : main crn c = (some out, c2)) : ∀ x ∈ out, wfCx x :=
  rxnAll_wf (irrev_reactions crn) c out c2 h

/-- The domains of a sequence item list (strand breaks dropped). -/
def seqDoms (l : List SeqItem) : List Domain :=
  l.filterMap (fun a => match a with | SeqItem.dom d => some d | SeqItem.brk => none)

theorem cxDoms_eq (x : CxE) : cxDoms x = seqDoms x.seq := rfl

@[simp] theorem seqDoms_nil : seqDoms [] = [] := rfl

@[simp] theorem seqDoms_cons_dom (d : Domain) (l : List SeqItem) :
    seqDoms (SeqItem.dom d :: l) = d :: seqDoms l := rfl

@[simp] theorem seqDoms_cons_brk (l : List SeqItem) :
    seqDoms (SeqItem.brk :: l) = seqDoms l := rfl

@[simp] theorem seqDoms_append (a b : List SeqItem) :
    seqDoms (a ++ b) = seqDoms a ++ seqDoms b := by
  simp [seqDoms, List.filterMap_append]

@[simp] theorem base_star (d : Domain) : d.star.base = d.base := by
  cases d; simp [Domain.star, Domain.base]

@[simp] theorem base_base (d : Domain) : d.base.base = d.base := rfl

@[simp] theorem base_id (d : Domain) : d.base.id = d.id := rfl

@[simp] theorem base_shortD (c : Nat) : (shortD c).base = shortD c := rfl

@[simp] theorem base_longD (c : Nat) : (longD c).base = longD c := rfl

@[simp] theorem base_histLongD (c : Nat) : (histLongD c).base = histLongD c := rfl

theorem mem_seqDoms_seqJoin {d : Domain} {frags : List CxE}
    (h : d ∈ seqDoms (seqJoin frags)) : ∃ q ∈ frags, d ∈ seqDoms q.seq := by
  obtain ⟨a, ha, hfa⟩ := List.mem_filterMap.mp h
  obtain ⟨s, hs, has⟩ := List.mem_flatten.mp ha
  obtain ⟨q, hq, rfl⟩ := List.mem_map.mp hs
  exact ⟨q, hq, List.mem_filterMap.mpr ⟨a, has, hfa⟩⟩

/-- The bases of every domain of every species in a list. -/
def baseDoms (l : List Species) : List Domain :=
  ((l.map (fun sp => [sp.f, sp.m, sp.s])).flatten).map Domain.base

theorem mem_baseDoms {d : Domain} {l : List Species} :
    d ∈ baseDoms l ↔ ∃ sp ∈ l, d = sp.f.base ∨ d = sp.m.base ∨ d = sp.s.base := by
  simp [baseDoms]

theorem baseDoms_mono {d : Domain} {l1 l2 : List Species}
    (hsub : ∀ sp ∈ l1, sp ∈ l2) (h : d ∈ baseDoms l1) : d ∈ baseDoms l2 := by
  obtain ⟨sp, hsp, hd⟩ := mem_baseDoms.mp h
  exact mem_baseDoms.mpr ⟨sp, hsub sp hsp, hd⟩

theorem mem_baseDoms_append {d : Domain} {a b : List Species} :
    d ∈ baseDoms (a ++ b) ↔ d ∈ baseDoms a ∨ d ∈ baseDoms b := by
  constructor
  · intro h
    obtain ⟨sp, hsp, hd⟩ := mem_baseDoms.mp h
    rcases List.mem_append.mp hsp with hs | hs
    · exact Or.inl (mem_baseDoms.mpr ⟨sp, hs, hd⟩)
    · exact Or.inr (mem_baseDoms.mpr ⟨sp, hs, hd⟩)
  · intro h
    rcases h with h | h
    · exact baseDoms_mono (fun sp hs => List.mem_append.mpr (Or.inl hs)) h
    · exact baseDoms_mono (fun sp hs => List.mem_append.mpr (Or.inr hs)) h

theorem getLastD_mem (rtl : List Species) (r0 : Species) :
    rtl.getLastD r0 ∈ r0 :: rtl := by
  induction rtl generalizing r0 with
  | nil => simp [List.getLastD]
  | cons y rest ih =>
    rw [List.getLastD_cons]
    exact List.mem_cons_of_mem _ (ih y)

theorem junctionsSpec_mem_strong (r : List Species) :
    ∀ t ∈ junctionsSpec r, ∃ x y, x ∈ r ∧ y ∈ r ∧ t = reactgT x y := by
  induction r with
  | nil => intro t ht; simp [junctionsSpec] at ht
  | cons x0 tl ih =>
    cases tl with
    | nil => intro t ht; simp [junctionsSpec] at ht
    | cons y rest =>
      intro t ht
      simp only [junctionsSpec, List.mem_cons] at ht
      rcases ht with h | h
      · exact ⟨x0, y, by simp, by simp, h⟩
      · obtain ⟨x2, y2, hx2, hy2, rfl⟩ := ih t h
        exact ⟨x2, y2, List.mem_cons_of_mem _ hx2, List.mem_cons_of_mem _ hy2, rfl⟩

theorem mapAlloc_prodg_mem_strong (ptl : List Species) (c : Nat) :
    ∀ t ∈ (mapAlloc prodg ptl c).1,
      ∃ sp cc, sp ∈ ptl ∧ c ≤ cc ∧ cc < c + ptl.length ∧ t = (prodg sp cc).1 := by
  induction ptl generalizing c with
  | nil => intro t ht; simp [mapAlloc] at ht
  | cons x rest ih =>
    intro t ht
    simp only [mapAlloc, List.mem_cons] at ht
    rcases ht with h | h
    · exact ⟨x, c, by simp, le_refl c, by simp, h⟩
    · obtain ⟨sp, cc, hsp, hc1, hc2, rfl⟩ := ih (prodg x c).2 t h
      refine ⟨sp, cc, List.mem_cons_of_mem _ hsp, ?_, ?_, rfl⟩
      · simp [prodg] at hc1; omega
      · simp [prodg] at hc2 ⊢; omega

theorem mem_outDoms {d : Domain} {l : List CxE} :
    d ∈ outDoms l ↔ ∃ x ∈ l, d ∈ cxDoms x := by
  simp [outDoms, List.mem_flatten]

theorem flCx_doms (r p : List Species) (c : Nat) :
    ∀ d ∈ seqDoms (flCx r p c).seq,
      d.base ∈ baseDoms p ∨ (c ≤ d.id ∧ d.id < (flux r p c).2 ∧ d.base = longD d.id) := by
  intro d hd
  cases p with
  | nil => simp [flCx, flux, mkCx, seqDoms] at hd
  | cons q tl =>
    cases tl with
    | nil =>
      simp [flCx, flux, mkCx] at hd
      rcases hd with rfl | rfl
      · right
        refine ⟨le_refl c, ?_, rfl⟩
        simp [flux, longD]
      · exact Or.inl (mem_baseDoms.mpr ⟨q, by simp, Or.inl rfl⟩)
    | cons q2 tl2 =>
      simp [flCx, flux, mkCx] at hd
      subst hd
      right
      refine ⟨le_refl c, ?_, rfl⟩
      simp [flux, longD]

theorem junc_doms (r : List Species) {d : Domain} {t : CxE × CxE × CxE}
    (ht : t ∈ junctionsSpec r)
    (hd : d ∈ seqDoms t.1.seq ∨ d ∈ seqDoms t.2.1.seq ∨ d ∈ seqDoms t.2.2.seq) :
    d.base ∈ baseDoms r := by
  obtain ⟨x, y, hx, hy, rfl⟩ := junctionsSpec_mem_strong r t ht
  have hxm : x.m.base ∈ baseDoms r := mem_baseDoms.mpr ⟨x, hx, Or.inr (Or.inl rfl)⟩
  have hxs : x.s.base ∈ baseDoms r := mem_baseDoms.mpr ⟨x, hx, Or.inr (Or.inr rfl)⟩
  have hyf : y.f.base ∈ baseDoms r := mem_baseDoms.mpr ⟨y, hy, Or.inl rfl⟩
  rcases hd with h | h | h
  · simp [reactgT, mkCx] at h
    rcases h with rfl | rfl | rfl
    · exact hxm
    · exact hxs
    · exact hyf
  · simp [reactgT, mkCx] at h
    rcases h with rfl | rfl | rfl
    · simpa using hyf
    · simpa using hxs
    · simpa using hxm
  · simp [reactgT, mkCx] at h
    rcases h with rfl | rfl | rfl
    · exact hxm
    · exact hxs
    · exact hyf

theorem rgateOutSpec_doms (r0 : Species) (rtl : List Species) (fl : CxE) :
    ∀ d ∈ outDoms (rgateOutSpec r0 rtl fl).cxs,
      d.base ∈ baseDoms (r0 :: rtl) ∨ ∃ e ∈ seqDoms fl.seq, d.base = e.base := by
  intro d hd
  obtain ⟨x, hx, hdx⟩ := mem_outDoms.mp hd
  have hlast := getLastD_mem rtl r0
  have hm : (rtl.getLastD r0).m.base ∈ baseDoms (r0 :: rtl) :=
    mem_baseDoms.mpr ⟨_, hlast, Or.inr (Or.inl rfl)⟩
  have hs : (rtl.getLastD r0).s.base ∈ baseDoms (r0 :: rtl) :=
    mem_baseDoms.mpr ⟨_, hlast, Or.inr (Or.inr rfl)⟩
  have hf : r0.f.base ∈ baseDoms (r0 :: rtl) :=
    mem_baseDoms.mpr ⟨r0, by simp, Or.inl rfl⟩
  simp only [rgateOutSpec, List.mem_cons, List.mem_singleton, List.not_mem_nil,
    or_false] at hx
  rcases hx with rfl | rfl
  · rw [cxDoms_eq] at hdx
    simp only [seqDoms_append, seqDoms_cons_dom, seqDoms_cons_brk, seqDoms_nil,
      List.mem_append, List.mem_cons, List.not_mem_nil, or_false, or_assoc] at hdx
    rcases hdx with h | rfl | rfl | h | rfl | rfl | h | rfl
    · obtain ⟨q, hq, hdq⟩ := mem_seqDoms_seqJoin h
      obtain ⟨tj, htj, rfl⟩ := List.mem_map.mp hq
      exact Or.inl (junc_doms _ htj (Or.inl hdq))
    · exact Or.inl hm
    · exact Or.inl hs
    · exact Or.inr ⟨d, h, rfl⟩
    · exact Or.inl (by simpa using hs)
    · exact Or.inl (by simpa using hm)
    · obtain ⟨q, hq, hdq⟩ := mem_seqDoms_seqJoin h
      obtain ⟨tj, htj, rfl⟩ := List.mem_map.mp (List.mem_reverse.mp hq)
      exact Or.inl (junc_doms _ htj (Or.inr (Or.inl hdq)))
    · exact Or.inl (by simpa using hf)
  · rw [cxDoms_eq] at hdx
    obtain ⟨q, hq, hdq⟩ := mem_seqDoms_seqJoin hdx
    obtain ⟨tj, htj, rfl⟩ := List.mem_map.mp hq
    exact Or.inl (junc_doms _ htj (Or.inr (Or.inr hdq)))

theorem rgateR0OutSpec_doms (c : Nat) (fl : CxE) :
    ∀ d ∈ outDoms (rgateR0OutSpec c fl).cxs,
      d.base = shortD c ∨ d.base = longD (c + 1) ∨ d.base = shortD (c + 2) ∨
        ∃ e ∈ seqDoms fl.seq, d.base = e.base := by
  intro d hd
  obtain ⟨x, hx, hdx⟩ := mem_outDoms.mp hd
  simp only [rgateR0OutSpec, List.mem_cons, List.mem_singleton, List.not_mem_nil,
    or_false] at hx
  rcases hx with rfl | rfl
  · rw [cxDoms_eq] at hdx
    simp only [seqDoms_append, seqDoms_cons_dom, seqDoms_cons_brk, seqDoms_nil,
      List.mem_append, List.mem_cons, List.not_mem_nil, or_false, or_assoc] at hdx
    rcases hdx with rfl | rfl | h | rfl | rfl | rfl
    · exact Or.inr (Or.inl rfl)
    · exact Or.inr (Or.inr (Or.inl rfl))
    · exact Or.inr (Or.inr (Or.inr ⟨d, h, rfl⟩))
    · exact Or.inr (Or.inr (Or.inl (by simp)))
    · exact Or.inr (Or.inl (by simp))
    · exact Or.inl (by simp)
  · rw [cxDoms_eq] at hdx
    simp only [seqDoms_cons_dom, seqDoms_nil, List.mem_cons, List.not_mem_nil,
      or_false] at hdx
    rcases hdx with rfl | rfl | rfl
    · exact Or.inl rfl
    · exact Or.inr (Or.inl rfl)
    · exact Or.inr (Or.inr (Or.inl rfl))

theorem prodg_doms_aux {d : Domain} (sp : Species) (cc : Nat)
    (hd : d ∈ seqDoms (prodg sp cc).1.1.seq ∨ d ∈ seqDoms (prodg sp cc).1.2.1.seq ∨
      d ∈ seqDoms (prodg sp cc).1.2.2.seq) :
    d.base = sp.f.base ∨ d.base = sp.m.base ∨ d.base = sp.s.base ∨
      d.base = histLongD cc := by
  rcases hd with h | h | h
  · simp [prodg, mkCx] at h
    rcases h with rfl | rfl | rfl | rfl
    · exact Or.inr (Or.inr (Or.inr (by simp)))
    · exact Or.inl rfl
    · exact Or.inr (Or.inl rfl)
    · exact Or.inr (Or.inr (Or.inl rfl))
  · simp [prodg, mkCx] at h
    rcases h with rfl | rfl
    · exact Or.inl (by simp)
    · exact Or.inr (Or.inr (Or.inr (by simp)))
  · simp [prodg, mkCx] at h
    rcases h with rfl | rfl
    · exact Or.inr (Or.inr (Or.inr (by simp)))
    · exact Or.inl rfl

theorem pgate_doms (sa : Domain) (px : Species) (ptl : List Species) (hf : Domain)
    (c : Nat) :
    ∀ d ∈ outDoms [pgTop sa px ptl hf c, pgHelp px ptl c],
      d.base ∈ baseDoms (px :: ptl) ∨ d.base = sa.base ∨ d.base = hf.base ∨
        (c ≤ d.id ∧ d.id < c + ptl.length ∧ d.base = histLongD d.id) := by
  intro d hd
  have hpx : ∀ h : d.base = px.f.base ∨ d.base = px.m.base ∨ d.base = px.s.base,
      d.base ∈ baseDoms (px :: ptl) := fun h => mem_baseDoms.mpr ⟨px, by simp, h⟩
  have hfrag : ∀ t ∈ (mapAlloc prodg ptl c).1,
      (d ∈ seqDoms t.1.seq ∨ d ∈ seqDoms t.2.1.seq ∨ d ∈ seqDoms t.2.2.seq) →
      d.base ∈ baseDoms (px :: ptl) ∨ d.base = sa.base ∨ d.base = hf.base ∨
        (c ≤ d.id ∧ d.id < c + ptl.length ∧ d.base = histLongD d.id) := by
    intro t ht hmem
    obtain ⟨sp, cc, hsp, hc1, hc2, rfl⟩ := mapAlloc_prodg_mem_strong ptl c t ht
    rcases prodg_doms_aux sp cc hmem with h | h | h
    · exact Or.inl (mem_baseDoms.mpr ⟨sp, by simp [hsp], Or.inl (by rw [h])⟩)
    · exact Or.inl (mem_baseDoms.mpr ⟨sp, by simp [hsp], Or.inr (Or.inl (by rw [h]))⟩)
    · rcases h with h | h
      · exact Or.inl (mem_baseDoms.mpr ⟨sp, by simp [hsp], Or.inr (Or.inr (by rw [h]))⟩)
      · have hid : d.id = cc := by
          have h2 := congrArg Domain.id h
          simpa [histLongD] using h2
        rw [← hid] at hc1 hc2 h
        exact Or.inr (Or.inr (Or.inr ⟨hc1, hc2, h⟩))
  obtain ⟨x, hx, hdx⟩ := mem_outDoms.mp hd
  simp only [List.mem_cons, List.mem_singleton, List.not_mem_nil, or_false] at hx
  rcases hx with rfl | rfl
  · rw [cxDoms_eq] at hdx
    simp only [pgTop, seqDoms_append, seqDoms_cons_dom, seqDoms_cons_brk, seqDoms_nil,
      List.mem_append, List.mem_cons, List.not_mem_nil, or_false, or_assoc] at hdx
    rcases hdx with rfl | rfl | rfl | rfl | h | h | rfl | rfl | rfl
    · exact Or.inr (Or.inr (Or.inl rfl))
    · exact Or.inl (hpx (Or.inl rfl))
    · exact Or.inl (hpx (Or.inr (Or.inl rfl)))
    · exact Or.inl (hpx (Or.inr (Or.inr rfl)))
    · obtain ⟨q, hq, hdq⟩ := mem_seqDoms_seqJoin h
      obtain ⟨tj, htj, rfl⟩ := List.mem_map.mp hq
      exact hfrag tj htj (Or.inl hdq)
    · obtain ⟨q, hq, hdq⟩ := mem_seqDoms_seqJoin h
      obtain ⟨tj, htj, rfl⟩ := List.mem_map.mp (List.mem_reverse.mp hq)
      exact hfrag tj htj (Or.inr (Or.inl hdq))
    · exact Or.inl (hpx (Or.inl (by simp)))
    · exact Or.inr (Or.inr (Or.inl (by simp)))
    · exact Or.inr (Or.inl (by simp))
  · rw [cxDoms_eq] at hdx
    simp only [pgHelp, seqDoms_cons_dom, List.mem_cons] at hdx
    rcases hdx with rfl | h
    · exact Or.inl (hpx (Or.inl rfl))
    · obtain ⟨q, hq, hdq⟩ := mem_seqDoms_seqJoin h
      obtain ⟨tj, htj, rfl⟩ := List.mem_map.mp hq
      exact hfrag tj htj (Or.inr (Or.inr hdq))

theorem p1Cx_doms (sa : Domain) (px : Species) (hf : Domain) :
    ∀ d ∈ cxDoms (p1Cx sa px hf),
      d.base ∈ baseDoms [px] ∨ d.base = sa.base ∨ d.base = hf.base := by
  intro d hd
  have hpx : ∀ h : d.base = px.f.base ∨ d.base = px.m.base ∨ d.base = px.s.base,
      d.base ∈ baseDoms [px] := fun h => mem_baseDoms.mpr ⟨px, by simp, h⟩
  rw [cxDoms_eq] at hd
  simp only [p1Cx, seqDoms_cons_dom, seqDoms_cons_brk, seqDoms_nil, List.mem_cons,
    List.not_mem_nil, or_false] at hd
  rcases hd with rfl | rfl | rfl | rfl | rfl | rfl | rfl
  · exact Or.inr (Or.inr rfl)
  · exact Or.inl (hpx (Or.inl rfl))
  · exact Or.inl (hpx (Or.inr (Or.inl rfl)))
  · exact Or.inl (hpx (Or.inr (Or.inr rfl)))
  · exact Or.inl (hpx (Or.inl (by simp)))
  · exact Or.inr (Or.inr (by simp))
  · exact Or.inr (Or.inl (by simp))

theorem flux_ctr_ge (r p : List Species) (c : Nat) : c ≤ (flux r p c).2 := by
  cases p with
  | nil => simp [flux]
  | cons q tl => cases tl <;> simp [flux]

theorem flux_ctr_le (r p : List Species) (c : Nat) : (flux r p c).2 ≤ c + 1 := by
  cases p with
  | nil => simp [flux]
  | cons q tl => cases tl <;> simp [flux]

theorem base_eq_id {d e : Domain} (h : d.base = e.base) : d.id = e.id := by
  have h2 := congrArg Domain.id h
  simpa using h2

theorem id_of_base {d e : Domain} (h : d.base = e) : d.id = e.id := by
  have h2 := congrArg Domain.id h
  simpa using h2

/-- The name-to-domain map for all fresh domains of a zero-reactant
reaction compiled at counter `c`: fuel `f`/`m`/`s` at `c`/`c+1`/`c+2`, the
flux domain at `c+3`, history domains beyond. -/
def rxnF0 (c : Nat) : Nat → Domain := fun i =>
  if i = c ∨ i = c + 2 then shortD i
  else if i = c + 1 ∨ i = c + 3 then longD i
  else histLongD i

/-- The name-to-domain map for all fresh domains of a reaction with
reactants compiled at counter `c`: the flux domain at `c`, history domains
beyond. -/
def rxnF1 (c : Nat) : Nat → Domain := fun i =>
  if i = c then longD i else histLongD i

theorem rxnF0_id (c i : Nat) : (rxnF0 c i).id = i := by
  unfold rxnF0
  split_ifs <;> rfl

theorem rxnF1_id (c i : Nat) : (rxnF1 c i).id = i := by
  unfold rxnF1
  split_ifs <;> rfl

theorem rxnF0_at_c (c : Nat) : rxnF0 c c = shortD c := by
  unfold rxnF0
  rw [if_pos (Or.inl rfl)]

theorem rxnF0_at_c1 (c : Nat) : rxnF0 c (c + 1) = longD (c + 1) := by
  unfold rxnF0
  rw [if_neg (by omega), if_pos (Or.inl rfl)]

theorem rxnF0_at_c2 (c : Nat) : rxnF0 c (c + 2) = shortD (c + 2) := by
  unfold rxnF0
  rw [if_pos (Or.inr rfl)]

theorem rxnF0_at_c3 (c : Nat) : rxnF0 c (c + 3) = longD (c + 3) := by
  unfold rxnF0
  rw [if_neg (by omega), if_pos (Or.inr rfl)]

theorem rxnF0_hist (c i : Nat) (h : c + 4 ≤ i) : rxnF0 c i = histLongD i := by
  unfold rxnF0
  rw [if_neg (by omega), if_neg (by omega)]

theorem rxnF1_at_c (c : Nat) : rxnF1 c c = longD c := by
  unfold rxnF1
  rw [if_pos rfl]

theorem rxnF1_hist (c i : Nat) (h : c + 1 ≤ i) : rxnF1 c i = histLongD i := by
  unfold rxnF1
  rw [if_neg (by omega)]

theorem rgateR0_doms_F (c : Nat) (p : List Species) :
    ∀ d ∈ outDoms (rgateR0OutSpec c (flCx [] p (c + 3))).cxs,
      d.base ∈ baseDoms p ∨
        (c ≤ d.id ∧ d.id < (flux [] p (c + 3)).2 ∧ d.base = rxnF0 c d.id) := by
  intro d hd
  have hge := flux_ctr_ge [] p (c + 3)
  have hle := flux_ctr_le [] p (c + 3)
  rcases rgateR0OutSpec_doms c _ d hd with hb | hb | hb | ⟨e, he, hb⟩
  · have hid : d.id = c := by simpa [shortD] using id_of_base hb
    right
    exact ⟨by omega, by omega, by rw [hb, hid, rxnF0_at_c]⟩
  · have hid : d.id = c + 1 := by simpa [longD] using id_of_base hb
    right
    exact ⟨by omega, by omega, by rw [hb, hid, rxnF0_at_c1]⟩
  · have hid : d.id = c + 2 := by simpa [shortD] using id_of_base hb
    right
    exact ⟨by omega, by omega, by rw [hb, hid, rxnF0_at_c2]⟩
  · rcases flCx_doms [] p (c + 3) e he with h | ⟨h1, h2, h3⟩
    · left
      rw [hb]
      exact h
    · have hid : d.id = e.id := base_eq_id hb
      have hide : e.id = c + 3 := by omega
      right
      exact ⟨by omega, by omega, by rw [hb, h3, hide, hid, hide, rxnF0_at_c3]⟩

theorem rgate_doms_F (r0 : Species) (rtl p : List Species) (c : Nat) :
    ∀ d ∈ outDoms (rgateOutSpec r0 rtl (flCx (r0 :: rtl) p c)).cxs,
      d.base ∈ baseDoms ((r0 :: rtl) ++ p) ∨
        (c ≤ d.id ∧ d.id < (flux (r0 :: rtl) p c).2 ∧ d.base = rxnF1 c d.id) := by
  intro d hd
  have hle := flux_ctr_le (r0 :: rtl) p c
  rcases rgateOutSpec_doms r0 rtl _ d hd with hb | ⟨e, he, hb⟩
  · exact Or.inl (mem_baseDoms_append.mpr (Or.inl hb))
  · rcases flCx_doms (r0 :: rtl) p c e he with h | ⟨h1, h2, h3⟩
    · left
      rw [hb]
      exact mem_baseDoms_append.mpr (Or.inr h)
    · have hid : d.id = e.id := base_eq_id hb
      have hide : e.id = c := by omega
      right
      exact ⟨by omega, by omega, by rw [hb, h3, hide, hid, hide, rxnF1_at_c]⟩

/-- Domain provenance of a compiled reaction: every domain of the output is
(up to complementation) either a domain of one of the reaction's species, or
a fresh domain whose name lies in the counter interval consumed by the
reaction and determines it. -/
theorem rxn_doms (r : Rxn) (c : Nat) (out : List CxE) (c2 : Nat)
    (h : rxn r c = (some out, c2)) :
    c ≤ c2 ∧ ∃ F : Nat → Domain, (∀ i, (F i).id = i) ∧
      ∀ d ∈ outDoms out, d.base ∈ baseDoms (r.reactants ++ r.products) ∨
        (c ≤ d.id ∧ d.id < c2 ∧ d.base = F d.id) := by
  obtain ⟨reactants, products, rev⟩ := r
  cases reactants with
  | nil =>
    refine ⟨?_, rxnF0 c, rxnF0_id c, ?_⟩
    · rcases products with _ | ⟨px, _ | ⟨py, ptl2⟩⟩
      · rw [rxn_eq_nil_nil] at h
        simp only [Prod.mk.injEq, Option.some.injEq] at h
        omega
      · rw [rxn_eq_nil_one] at h
        simp only [Prod.mk.injEq, Option.some.injEq] at h
        omega
      · rw [rxn_eq_nil_many] at h
        simp only [Prod.mk.injEq, Option.some.injEq] at h
        omega
    rcases products with _ | ⟨px, _ | ⟨py, ptl2⟩⟩
    · rw [rxn_eq_nil_nil] at h
      simp only [Prod.mk.injEq, Option.some.injEq] at h
      obtain ⟨h1, h2⟩ := h
      subst h1
      intro d hd
      rcases rgateR0_doms_F c [] d hd with hb | ⟨hb1, hb2, hb3⟩
      · simp [mem_baseDoms] at hb
      · right
        refine ⟨hb1, ?_, hb3⟩
        simp only [flux] at hb2
        omega
    · rw [rxn_eq_nil_one] at h
      simp only [Prod.mk.injEq, Option.some.injEq] at h
      obtain ⟨h1, h2⟩ := h
      subst h1
      intro d hd
      rcases mem_outDoms.mp hd with ⟨x, hx, hdx⟩
      rcases List.mem_append.mp hx with hx | hx
      · have hd2 : d ∈ outDoms (rgateR0OutSpec c (flCx [] [px] (c + 3))).cxs :=
          mem_outDoms.mpr ⟨x, hx, hdx⟩
        rcases rgateR0_doms_F c [px] d hd2 with hb | ⟨hb1, hb2, hb3⟩
        · exact Or.inl (mem_baseDoms_append.mpr (Or.inr hb))
        · right
          refine ⟨hb1, ?_, hb3⟩
          simp only [flux] at hb2
          omega
      · simp only [List.mem_singleton] at hx
        subst hx
        rcases p1Cx_doms _ px _ d hdx with hb | hb | hb
        · exact Or.inl (mem_baseDoms_append.mpr (Or.inr hb))
        · have hid : d.id = c + 2 := by simpa [shortD] using base_eq_id hb
          right
          refine ⟨by omega, by omega, ?_⟩
          rw [hb, hid, rxnF0_at_c2]
          simp
        · have hid : d.id = c + 3 := by simpa [longD] using base_eq_id hb
          right
          refine ⟨by omega, by omega, ?_⟩
          rw [hb, hid, rxnF0_at_c3]
          simp
    · rw [rxn_eq_nil_many] at h
      simp only [Prod.mk.injEq, Option.some.injEq] at h
      obtain ⟨h1, h2⟩ := h
      subst h1
      intro d hd
      rcases mem_outDoms.mp hd with ⟨x, hx, hdx⟩
      rcases List.mem_append.mp hx with hx | hx
      · have hd2 : d ∈ outDoms (rgateR0OutSpec c (flCx [] (px :: py :: ptl2) (c + 3))).cxs :=
          mem_outDoms.mpr ⟨x, hx, hdx⟩
        rcases rgateR0_doms_F c (px :: py :: ptl2) d hd2 with hb | ⟨hb1, hb2, hb3⟩
        · exact Or.inl (mem_baseDoms_append.mpr (Or.inr hb))
        · right
          refine ⟨hb1, ?_, hb3⟩
          simp only [flux] at hb2
          omega
      · have hd2 : d ∈ outDoms [pgTop (shortD (c + 2)) px (py :: ptl2) (longD (c + 3)) (c + 4),
            pgHelp px (py :: ptl2) (c + 4)] := mem_outDoms.mpr ⟨x, hx, hdx⟩
        rcases pgate_doms _ px (py :: ptl2) _ (c + 4) d hd2 with hb | hb | hb | ⟨hb1, hb2, hb3⟩
        · exact Or.inl (mem_baseDoms_append.mpr (Or.inr hb))
        · have hid : d.id = c + 2 := by simpa [shortD] using base_eq_id hb
          right
          refine ⟨by omega, by omega, ?_⟩
          rw [hb, hid, rxnF0_at_c2]
          simp
        · have hid : d.id = c + 3 := by simpa [longD] using base_eq_id hb
          right
          refine ⟨by omega, by omega, ?_⟩
          rw [hb, hid, rxnF0_at_c3]
          simp
        · right
          refine ⟨by omega, by omega, ?_⟩
          rw [hb3, rxnF0_hist c d.id (by omega)]
  | cons r0 rtl =>
    refine ⟨?_, rxnF1 c, rxnF1_id c, ?_⟩
    · rcases products with _ | ⟨px, _ | ⟨py, ptl2⟩⟩
      · rw [rxn_eq_cons_nil] at h
        simp only [Prod.mk.injEq, Option.some.injEq] at h
        omega
      · rw [rxn_eq_cons_one] at h
        simp only [Prod.mk.injEq, Option.some.injEq] at h
        omega
      · rw [rxn_eq_cons_many] at h
        simp only [Prod.mk.injEq, Option.some.injEq] at h
        omega
    rcases products with _ | ⟨px, _ | ⟨py, ptl2⟩⟩
    · rw [rxn_eq_cons_nil] at h
      simp only [Prod.mk.injEq, Option.some.injEq] at h
      obtain ⟨h1, h2⟩ := h
      subst h1
      intro d hd
      rcases rgate_doms_F r0 rtl [] c d hd with hb | ⟨hb1, hb2, hb3⟩
      · exact Or.inl (by simpa using hb)
      · right
        refine ⟨hb1, ?_, hb3⟩
        simp only [flux] at hb2
        omega
    · rw [rxn_eq_cons_one] at h
      simp only [Prod.mk.injEq, Option.some.injEq] at h
      obtain ⟨h1, h2⟩ := h
      subst h1
      intro d hd
      rcases mem_outDoms.mp hd with ⟨x, hx, hdx⟩
      rcases List.mem_append.mp hx with hx | hx
      · have hd2 : d ∈ outDoms (rgateOutSpec r0 rtl (flCx (r0 :: rtl) [px] c)).cxs :=
          mem_outDoms.mpr ⟨x, hx, hdx⟩
        rcases rgate_doms_F r0 rtl [px] c d hd2 with hb | ⟨hb1, hb2, hb3⟩
        · exact Or.inl hb
        · right
          refine ⟨hb1, ?_, hb3⟩
          simp only [flux] at hb2
          omega
      · simp only [List.mem_singleton] at hx
        subst hx
        rcases p1Cx_doms _ px _ d hdx with hb | hb | hb
        · exact Or.inl (mem_baseDoms_append.mpr (Or.inr hb))
        · left
          rw [hb]
          refine mem_baseDoms_append.mpr (Or.inl ?_)
          exact mem_baseDoms.mpr ⟨_, getLastD_mem rtl r0, Or.inr (Or.inr rfl)⟩
        · have hid : d.id = c := by simpa [longD] using base_eq_id hb
          right
          refine ⟨by omega, by omega, ?_⟩
          rw [hb, hid, rxnF1_at_c]
          simp
    · rw [rxn_eq_cons_many] at h
      simp only [Prod.mk.injEq, Option.some.injEq] at h
      obtain ⟨h1, h2⟩ := h
      subst h1
      intro d hd
      rcases mem_outDoms.mp hd with ⟨x, hx, hdx⟩
      rcases List.mem_append.mp hx with hx | hx
      · have hd2 : d ∈ outDoms (rgateOutSpec r0 rtl (flCx (r0 :: rtl) (px :: py :: ptl2) c)).cxs :=
          mem_outDoms.mpr ⟨x, hx, hdx⟩
        rcases rgate_doms_F r0 rtl (px :: py :: ptl2) c d hd2 with hb | ⟨hb1, hb2, hb3⟩
        · exact Or.inl hb
        · right
          refine ⟨hb1, ?_, hb3⟩
          simp only [flux] at hb2
          omega
      · have hd2 : d ∈ outDoms [pgTop ((rtl.getLastD r0).s) px (py :: ptl2) (longD c) (c + 1),
            pgHelp px (py :: ptl2) (c + 1)] := mem_outDoms.mpr ⟨x, hx, hdx⟩
        rcases pgate_doms _ px (py :: ptl2) _ (c + 1) d hd2 with hb | hb | hb | ⟨hb1, hb2, hb3⟩
        · exact Or.inl (mem_baseDoms_append.mpr (Or.inr hb))
        · left
          rw [hb]
          refine mem_baseDoms_append.mpr (Or.inl ?_)
          exact mem_baseDoms.mpr ⟨_, getLastD_mem rtl r0, Or.inr (Or.inr rfl)⟩
        · have hid : d.id = c := by simpa [longD] using base_eq_id hb
          right
          refine ⟨by omega, by omega, ?_⟩
          rw [hb, hid, rxnF1_at_c]
          simp
        · right
          refine ⟨by omega, by omega, ?_⟩
          rw [hb3, rxnF1_hist c d.id (by omega)]

/-- Domain provenance across a reaction list. -/
theorem rxnAll_doms (rs : List Rxn) (c : Nat) (out : List CxE) (c2 : Nat)
    (h : rxnAll rs c = (some out, c2)) :
    c ≤ c2 ∧ ∃ F : Nat → Domain, (∀ i, (F i).id = i) ∧
      ∀ d ∈ outDoms out,
        (∃ rr ∈ rs, d.base ∈ baseDoms (rr.reactants ++ rr.products)) ∨
        (c ≤ d.id ∧ d.id < c2 ∧ d.base = F d.id) := by
  induction rs generalizing c out c2 with
  | nil =>
    simp only [rxnAll, Prod.mk.injEq, Option.some.injEq] at h
    obtain ⟨h1, h2⟩ := h
    subst h1
    exact ⟨by omega, fun i => longD i, fun i => rfl, by simp [outDoms]⟩
  | cons r rs ih =>
    simp only [rxnAll] at h
    split at h
    next xs c1 heq =>
      split at h
      next ys cf heq2 =>
        simp only [Prod.mk.injEq, Option.some.injEq] at h
        obtain ⟨h1, h2⟩ := h
        subst h1
        subst h2
        obtain ⟨hc1, F1, hF1, hp1⟩ := rxn_doms r c xs c1 heq
        obtain ⟨hc2, F2, hF2, hp2⟩ := ih c1 ys cf heq2
        refine ⟨by omega, fun i => if i < c1 then F1 i else F2 i, ?_, ?_⟩
        · intro i
          by_cases hi : i < c1 <;> simp [hi, hF1, hF2]
        · intro d hd
          have hsplit : d ∈ outDoms xs ∨ d ∈ outDoms ys := by
            rcases mem_outDoms.mp hd with ⟨x, hx, hdx⟩
            rcases List.mem_append.mp hx with hx | hx
            · exact Or.inl (mem_outDoms.mpr ⟨x, hx, hdx⟩)
            · exact Or.inr (mem_outDoms.mpr ⟨x, hx, hdx⟩)
          rcases hsplit with hd2 | hd2
          · rcases hp1 d hd2 with hb | ⟨hb1, hb2, hb3⟩
            · exact Or.inl ⟨r, by simp, hb⟩
            · right
              refine ⟨hb1, by omega, ?_⟩
              show d.base = if d.id < c1 then F1 d.id else F2 d.id
              rw [if_pos hb2]
              exact hb3
          · rcases hp2 d hd2 with ⟨rr, hrr, hb⟩ | ⟨hb1, hb2, hb3⟩
            · exact Or.inl ⟨rr, by simp [hrr], hb⟩
            · right
              refine ⟨by omega, hb2, ?_⟩
              show d.base = if d.id < c1 then F1 d.id else F2 d.id
              rw [if_neg (by omega)]
              exact hb3
      next cf heq2 => simp at h
    next c1 heq => simp at h

/-- All base domains of all species of a CRN. -/
def crnDoms (crn : List Rxn) : List Domain :=
  (crn.map (fun r => baseDoms (r.reactants ++ r.products))).flatten

theorem mem_crnDoms {d : Domain} {crn : List Rxn} :
    d ∈ crnDoms crn ↔ ∃ r ∈ crn, d ∈ baseDoms (r.reactants ++ r.products) := by
  simp [crnDoms, List.mem_flatten]

/-- The reversible-expansion rewrite introduces no new species domains. -/
theorem irrev_doms (r2 : Rxn) (crn : List Rxn) (h : r2 ∈ irrev_reactions crn) :
    ∀ d, d ∈ baseDoms (r2.reactants ++ r2.products) → d ∈ crnDoms crn := by
  intro d hd
  simp only [irrev_reactions, List.mem_flatten, List.mem_map] at h
  obtain ⟨l, ⟨r, hr, hl⟩, hr2⟩ := h
  subst hl
  refine mem_crnDoms.mpr ⟨r, hr, ?_⟩
  by_cases hrev : r.reversible
  · simp only [hrev, if_true, List.mem_cons, List.mem_singleton, List.not_mem_nil,
      or_false] at hr2
    rcases hr2 with rfl | rfl
    · exact hd
    · exact mem_baseDoms_append.mpr (mem_baseDoms_append.mp hd).symm
  · simp only [hrev, if_false, List.mem_singleton, Bool.false_eq_true] at hr2
    subst hr2
    exact hd

/-- A domain list is name-injective when any two of its members that share a
name are the same domain up to complementation. -/
def NameInj (S : List Domain) : Prop :=
  ∀ d1 ∈ S, ∀ d2 ∈ S, d1.id = d2.id → d1.base = d2.base

instance (S : List Domain) : Decidable (NameInj S) := by
  unfold NameInj
  infer_instance

/-- Concrete species used by witnesses: domains 0..8 as three `f m s`
triples. -/
def spA : Species := ⟨shortD 0, longD 1, shortD 2⟩

/-- Second concrete witness species. -/
def spB : Species := ⟨shortD 3, longD 4, shortD 5⟩

/-- Third concrete witness species. -/
def spC : Species := ⟨shortD 6, longD 7, shortD 8⟩

/-- C1: the flux computation is a three-way case split on the product
count: zero products give the empty flux complex (and no allocation); one
product gives a single 2-domain complex of a fresh branch-migration (long)
domain `h` followed by the sole product's toehold `f`, both unpaired; more
than one product gives a single 1-domain complex of a fresh
branch-migration domain alone. -/
theorem C1_flux_cases (r p : List Species) (c : Nat) :
    (p = [] → flux r p c = ([mkCx [] []], c)) ∧
    (∀ q, p = [q] → flux r p c
      = ([mkCx [SeqItem.dom (longD c), SeqItem.dom q.f] [StItem.unp, StItem.unp]],
         c + 1)) ∧
    (2 ≤ p.length → flux r p c = ([mkCx [SeqItem.dom (longD c)] [StItem.unp]], c + 1)) ∧
    (longD c).kind = DKind.long ∧ (longD c).id = c ∧ (longD c).comp = false := by
  refine ⟨?_, ?_, ?_, rfl, rfl, rfl⟩
  · rintro rfl
    rfl
  · rintro q rfl
    rfl
  · intro h
    cases p with
    | nil => simp at h
    | cons a tl =>
      cases tl with
      | nil => simp at h
      | cons b tl2 => rfl

/-- Witness for C1 at concrete inputs covering the three cases. -/
theorem C1_flux_cases_witness :
    flux [] ([] : List Species) 0 = ([mkCx [] []], 0) ∧
    flux [] [spB] 9
      = ([mkCx [SeqItem.dom (longD 9), SeqItem.dom spB.f] [StItem.unp, StItem.unp]], 10) ∧
    flux [] [spA, spB] 4 = ([mkCx [SeqItem.dom (longD 4)] [StItem.unp]], 5) :=
  ⟨(C1_flux_cases [] [] 0).1 rfl,
   (C1_flux_cases [] [spB] 9).2.1 spB rfl,
   (C1_flux_cases [] [spA, spB] 4).2.2.1 (by decide)⟩

theorem rxnAll_pair (r1 r2 : Rxn) (c : Nat) :
    (rxnAll [r1, r2] c).1 = (rxnAll [r1] c).1.bind (fun s1 =>
      ((rxnAll [r2] (rxnAll [r1] c).2).1).map (fun s2 => s1 ++ s2)) := by
  simp only [rxnAll]
  rcases h1 : rxn r1 c with ⟨o1, c1⟩
  cases o1 with
  | none => simp
  | some xs =>
    rcases h2 : rxn r2 c1 with ⟨o2, c2⟩
    cases o2 with
    | none => simp [h2]
    | some ys => simp [h2]

/-- C2: the CRN compiler first expands each reversible reaction into its
forward and backward irreversible instances (forward before backward),
leaves irreversible reactions unchanged, performs the rewrite once over the
reaction list before any gate compilation, and consequently compiling
`A + B <-> C` yields the same complex set as the union of independently
compiling `A + B -> C` and then `C -> A + B`. -/
theorem C2_reversible_expansion (A B C : Species) (crn : List Rxn) (r : Rxn) (c : Nat) :
    (r.reversible = true → irrev_reactions [r]
      = [⟨r.reactants, r.products, false⟩, ⟨r.products, r.reactants, false⟩]) ∧
    (r.reversible = false → irrev_reactions [r] = [r]) ∧
    (irrev_reactions (r :: crn) = irrev_reactions [r] ++ irrev_reactions crn) ∧
    (main crn c = rxnAll (irrev_reactions crn) c) ∧
    ((main [⟨[A, B], [C], true⟩] c).1 =
      (main [⟨[A, B], [C], false⟩] c).1.bind (fun s1 =>
        ((main [⟨[C], [A, B], false⟩] (main [⟨[A, B], [C], false⟩] c).2).1).map
          (fun s2 => s1 ++ s2))) := by
  refine ⟨?_, ?_, ?_, rfl, ?_⟩
  · intro h
    simp [irrev_reactions, h]
  · intro h
    simp [irrev_reactions, h]
  · simp [irrev_reactions]
  · have e1 : irrev_reactions [⟨[A, B], [C], true⟩]
        = [⟨[A, B], [C], false⟩, ⟨[C], [A, B], false⟩] := by
      simp [irrev_reactions]
    have e2 : irrev_reactions [(⟨[A, B], [C], false⟩ : Rxn)] = [⟨[A, B], [C], false⟩] := by
      simp [irrev_reactions]
    have e3 : irrev_reactions [(⟨[C], [A, B], false⟩ : Rxn)] = [⟨[C], [A, B], false⟩] := by
      simp [irrev_reactions]
    show (rxnAll (irrev_reactions [⟨[A, B], [C], true⟩]) c).1 = _
    rw [e1]
    show _ = (rxnAll (irrev_reactions [⟨[A, B], [C], false⟩]) c).1.bind _
    rw [e2]
    have e4 : (main [(⟨[A, B], [C], false⟩ : Rxn)] c).2
        = (rxnAll [(⟨[A, B], [C], false⟩ : Rxn)] c).2 := by
      show (rxnAll (irrev_reactions [(⟨[A, B], [C], false⟩ : Rxn)]) c).2 = _
      rw [e2]
    rw [show main [(⟨[C], [A, B], false⟩ : Rxn)] = rxnAll [(⟨[C], [A, B], false⟩ : Rxn)]
      from by unfold main; rw [e3]]
    rw [e4]
    exact rxnAll_pair ⟨[A, B], [C], false⟩ ⟨[C], [A, B], false⟩ c

/-- Witness for C2 at concrete species. -/
theorem C2_reversible_expansion_witness :
    irrev_reactions [⟨[spA, spB], [spC], true⟩]
      = [⟨[spA, spB], [spC], false⟩, ⟨[spC], [spA, spB], false⟩] ∧
    irrev_reactions [⟨[spA], [spB], false⟩] = [⟨[spA], [spB], false⟩] ∧
    ((main [⟨[spA, spB], [spC], true⟩] 9).1 =
      (main [⟨[spA, spB], [spC], false⟩] 9).1.bind (fun s1 =>
        ((main [⟨[spC], [spA, spB], false⟩] (main [⟨[spA, spB], [spC], false⟩] 9).2).1).map
          (fun s2 => s1 ++ s2))) :=
  ⟨(C2_reversible_expansion spA spB spC [] ⟨[spA, spB], [spC], true⟩ 9).1 rfl,
   (C2_reversible_expansion spA spB spC [] ⟨[spA], [spB], false⟩ 9).2.1 rfl,
   (C2_reversible_expansion spA spB spC [] ⟨[spA], [spB], false⟩ 9).2.2.2.2⟩

theorem histOf_head {g : RGateOut} {h : Domain} (hh : histOf g = some h) :
    g.fl.seq.head? = some (SeqItem.dom h) := by
  unfold histOf at hh
  split at hh
  next d rest heq =>
    rw [heq]
    simp only [List.head?_cons, Option.some.injEq] at hh ⊢
    exact congrArg SeqItem.dom hh.symm ▸ rfl
  next => exact absurd hh (by simp)

theorem flux_snd_pos (r : List Species) (px : Species) (ptl : List Species) (c : Nat) :
    (flux r (px :: ptl) c).2 = c + 1 := by
  cases ptl <;> rfl

/-- C9: the history-handle lookup `react[0].fl[0].h` is always
well-defined.  The flux module always returns a one-element complex list;
whenever the reaction has at least one product and the reactant gate was
built, the gate's complex list is non-empty and the flux complex kept in its
environment starts with the fresh long domain `h`, so the indexings and the
field accesses cannot fail; and when the reaction has no products the
handle is never needed: the compiled reaction is exactly the reactant-gate
complexes. -/
theorem C9_hist_handle (r : Rxn) (c : Nat) :
    ((flux r.reactants r.products c).1.length = 1) ∧
    (r.products ≠ [] → ∀ g c1, reactPart r c = (some g, c1) →
      g.cxs ≠ [] ∧ ∃ h2, histOf g = some h2 ∧
        g.fl.seq.head? = some (SeqItem.dom h2) ∧
        h2.kind = DKind.long ∧ h2.comp = false ∧ c ≤ h2.id ∧ h2.id < c1) ∧
    (r.products = [] → (rxn r c).1 = ((reactPart r c).1).map RGateOut.cxs) := by
  obtain ⟨reactants, products, rev⟩ := r
  refine ⟨?_, ?_, ?_⟩
  · rcases products with _ | ⟨px, _ | ⟨py, ptl2⟩⟩ <;> rfl
  · intro hp g c1 hg
    rcases products with _ | ⟨px, ptl⟩
    · exact absurd rfl hp
    · cases reactants with
      | nil =>
        rw [show reactPart ⟨[], px :: ptl, rev⟩ c
            = srinivas_rgate_r0 [] (px :: ptl) c from rfl, srinivas_rgate_r0_eq] at hg
        simp only [Prod.mk.injEq, Option.some.injEq] at hg
        obtain ⟨hg1, hg2⟩ := hg
        subst hg1
        have hh : histOf (rgateR0OutSpec c (flCx [] (px :: ptl) (c + 3)))
            = some (longD (c + 3)) :=
          histOf_flCx _ [] (px :: ptl) (c + 3) rfl (by simp)
        refine ⟨by simp [rgateR0OutSpec], longD (c + 3), hh, histOf_head hh, rfl, rfl,
          by simp [longD], ?_⟩
        rw [← hg2, flux_snd_pos]
        simp [longD]
      | cons r0 rtl =>
        rw [show reactPart ⟨r0 :: rtl, px :: ptl, rev⟩ c
            = srinivas_rgate (r0 :: rtl) (px :: ptl) c from rfl, srinivas_rgate_eq] at hg
        simp only [Prod.mk.injEq, Option.some.injEq] at hg
        obtain ⟨hg1, hg2⟩ := hg
        subst hg1
        have hh : histOf (rgateOutSpec r0 rtl (flCx (r0 :: rtl) (px :: ptl) c))
            = some (longD c) :=
          histOf_flCx _ (r0 :: rtl) (px :: ptl) c rfl (by simp)
        refine ⟨by simp [rgateOutSpec], longD c, hh, histOf_head hh, rfl, rfl,
          by simp [longD], ?_⟩
        rw [← hg2, flux_snd_pos]
        simp [longD]
  · intro hp
    unfold rxn
    rcases hr : reactPart ⟨reactants, products, rev⟩ c with ⟨go, c1⟩
    cases go with
    | none => simp
    | some g =>
      subst hp
      simp [prodPart]

/-- Witness for C9 at a concrete one-reactant one-product reaction. -/
theorem C9_hist_handle_witness :
    (flux [spA] [spB] 9).1.length = 1 ∧
    ∃ g c1, reactPart ⟨[spA], [spB], false⟩ 9 = (some g, c1) ∧
      g.cxs ≠ [] ∧ ∃ h2, histOf g = some h2 ∧
        g.fl.seq.head? = some (SeqItem.dom h2) ∧
        h2.kind = DKind.long ∧ h2.comp = false ∧ 9 ≤ h2.id ∧ h2.id < c1 := by
  have h := C9_hist_handle ⟨[spA], [spB], false⟩ 9
  refine ⟨h.1, ?_⟩
  rcases hr : reactPart ⟨[spA], [spB], false⟩ 9 with ⟨go, c1⟩
  cases go with
  | none =>
    have h1 : (reactPart ⟨[spA], [spB], false⟩ 9).1 = none := by rw [hr]
    exact absurd h1 (by decide)
  | some g => exact ⟨g, c1, rfl, h.2.1 (by decide) g c1 hr⟩

/-- C3: the product side of the reaction compiler selects on the product
count: no products emit no product complex; one product uses
`srinivas_pgate_p1`; more than one uses `srinivas_pgate`.  In both non-zero
cases the anchor argument is the built reactant-gate complex list when
there are no reactants and the original reactant (formal species) list
otherwise, and the history handle passed forward is the `h` domain heading
the flux complex of the reactant gate (`react[0].fl[0].h`). -/
theorem C3_product_side (r : Rxn) (c : Nat) :
    (r.products = [] → (rxn r c).1 = ((reactPart r c).1).map RGateOut.cxs) ∧
    (∀ g c1, reactPart r c = (some g, c1) → r.products.length = 1 →
      ∃ h2, histOf g = some h2 ∧ g.fl.seq.head? = some (SeqItem.dom h2) ∧
        rxn r c = (((srinivas_pgate_p1
            (if r.reactants.length = 0 then g.cxs else r.reactants.map formal)
            r.products h2 c1).1).map (fun produce => g.cxs ++ produce),
          (srinivas_pgate_p1
            (if r.reactants.length = 0 then g.cxs else r.reactants.map formal)
            r.products h2 c1).2)) ∧
    (∀ g c1, reactPart r c = (some g, c1) → 2 ≤ r.products.length →
      ∃ h2, histOf g = some h2 ∧ g.fl.seq.head? = some (SeqItem.dom h2) ∧
        rxn r c = (((srinivas_pgate
            (if r.reactants.length = 0 then g.cxs else r.reactants.map formal)
            r.products h2 c1).1).map (fun produce => g.cxs ++ produce),
          (srinivas_pgate
            (if r.reactants.length = 0 then g.cxs else r.reactants.map formal)
            r.products h2 c1).2)) := by
  obtain ⟨reactants, products, rev⟩ := r
  have hhist : products ≠ [] → ∀ g c1,
      reactPart ⟨reactants, products, rev⟩ c = (some g, c1) →
      ∃ h2, histOf g = some h2 := by
    intro hp g c1 hg
    rcases products with _ | ⟨px, ptl⟩
    · exact absurd rfl hp
    · cases reactants with
      | nil =>
        rw [show reactPart ⟨[], px :: ptl, rev⟩ c
            = srinivas_rgate_r0 [] (px :: ptl) c from rfl, srinivas_rgate_r0_eq] at hg
        simp only [Prod.mk.injEq, Option.some.injEq] at hg
        obtain ⟨hg1, hg2⟩ := hg
        subst hg1
        exact ⟨longD (c + 3), histOf_flCx _ [] (px :: ptl) (c + 3) rfl (by simp)⟩
      | cons r0 rtl =>
        rw [show reactPart ⟨r0 :: rtl, px :: ptl, rev⟩ c
            = srinivas_rgate (r0 :: rtl) (px :: ptl) c from rfl, srinivas_rgate_eq] at hg
        simp only [Prod.mk.injEq, Option.some.injEq] at hg
        obtain ⟨hg1, hg2⟩ := hg
        subst hg1
        exact ⟨longD c, histOf_flCx _ (r0 :: rtl) (px :: ptl) c rfl (by simp)⟩
  refine ⟨?_, ?_, ?_⟩
  · intro hp
    unfold rxn
    rcases hr : reactPart ⟨reactants, products, rev⟩ c with ⟨go, c1⟩
    cases go with
    | none => simp
    | some g =>
      subst hp
      simp [prodPart]
  · intro g c1 hg hlen
    obtain ⟨h2, hh⟩ := hhist (by intro he; rw [he] at hlen; simp at hlen) g c1 hg
    refine ⟨h2, hh, histOf_head hh, ?_⟩
    have step : rxn ⟨reactants, products, rev⟩ c
        = (match prodPart ⟨reactants, products, rev⟩ g c1 with
           | (some produce, c2) => (some (g.cxs ++ produce), c2)
           | (none, c2) => (none, c2)) := by
      unfold rxn
      rw [hg]
    rw [step]
    unfold prodPart
    rw [hh]
    have hanchor : anchorOf ⟨reactants, products, rev⟩ g
        = if reactants.length = 0 then g.cxs else reactants.map formal := by
      unfold anchorOf
      by_cases hre : reactants.length = 0
      · simp [hre]
      · simp [hre]
    rw [hanchor]
    rcases hpg : srinivas_pgate_p1
        (if reactants.length = 0 then g.cxs else reactants.map formal)
        products h2 c1 with ⟨po, c2⟩
    simp only [List.length_eq_zero] at hpg
    cases po with
    | none => simp [hlen, hpg]
    | some produce => simp [hlen, hpg]
  · intro g c1 hg hlen
    obtain ⟨h2, hh⟩ := hhist (by intro he; rw [he] at hlen; simp at hlen) g c1 hg
    refine ⟨h2, hh, histOf_head hh, ?_⟩
    have step : rxn ⟨reactants, products, rev⟩ c
        = (match prodPart ⟨reactants, products, rev⟩ g c1 with
           | (some produce, c2) => (some (g.cxs ++ produce), c2)
           | (none, c2) => (none, c2)) := by
      unfold rxn
      rw [hg]
    rw [step]
    unfold prodPart
    rw [hh]
    have hanchor : anchorOf ⟨reactants, products, rev⟩ g
        = if reactants.length = 0 then g.cxs else reactants.map formal := by
      unfold anchorOf
      by_cases hre : reactants.length = 0
      · simp [hre]
      · simp [hre]
    rw [hanchor]
    have hlen2 : 2 ≤ products.length := hlen
    have hlen0 : (products.length == 0) = false := by
      have h3 : products.length ≠ 0 := by omega
      simpa using h3
    have hlen1 : (products.length == 1) = false := by
      have h3 : products.length ≠ 1 := by omega
      simpa using h3
    rcases hpg : srinivas_pgate
        (if reactants.length = 0 then g.cxs else reactants.map formal)
        products h2 c1 with ⟨po, c2⟩
    simp only [List.length_eq_zero] at hpg
    cases po with
    | none => simp [hlen0, hlen1, hpg]
    | some produce => simp [hlen0, hlen1, hpg]

/-- Witness for C3 at a concrete reaction with one product. -/
theorem C3_product_side_witness :
    ∃ g c1 h2, reactPart ⟨[spA], [spB], false⟩ 9 = (some g, c1) ∧
      histOf g = some h2 ∧ g.fl.seq.head? = some (SeqItem.dom h2) ∧
      rxn ⟨[spA], [spB], false⟩ 9
        = (((srinivas_pgate_p1 [formal spA] [spB] h2 c1).1).map
            (fun produce => g.cxs ++ produce),
          (srinivas_pgate_p1 [formal spA] [spB] h2 c1).2) := by
  rcases hr : reactPart ⟨[spA], [spB], false⟩ 9 with ⟨go, c1⟩
  cases go with
  | none =>
    have h1 : (reactPart ⟨[spA], [spB], false⟩ 9).1 = none := by rw [hr]
    exact absurd h1 (by decide)
  | some g =>
    obtain ⟨h2, hh, hhead, he⟩ :=
      (C3_product_side ⟨[spA], [spB], false⟩ 9).2.1 g c1 hr (by decide)
    exact ⟨g, c1, h2, rfl, hh, hhead, he⟩

theorem junctionsSpec_length (r : List Species) :
    (junctionsSpec r).length = r.length - 1 := by
  induction r with
  | nil => rfl
  | cons x tl ih =>
    cases tl with
    | nil => rfl
    | cons y rest =>
      simp only [junctionsSpec, List.length_cons]
      rw [show (junctionsSpec (y :: rest)).length = (y :: rest).length - 1 from ih]
      simp

theorem junctionsSpec_getElem (r : List Species) (i : Nat) :
    (junctionsSpec r)[i]? = reactg r i := by
  induction r generalizing i with
  | nil => simp [junctionsSpec, reactg]
  | cons x tl ih =>
    cases tl with
    | nil => cases i <;> rfl
    | cons y rest =>
      cases i with
      | zero => simp [junctionsSpec, reactg_zero]
      | succ j =>
        simp only [junctionsSpec, List.getElem?_cons_succ, reactg_cons_succ]
        exact ih j

/-- C5: for a reaction with at least one reactant, `map2(reactg, r,
range(len(r)-1))` yields one junction triple per index `i < len(r)-1`,
whose strand groups are exactly `mb sb fa +`, `fa* sb* mb*` and the
unpaired release group `mb sb fa` with `mb = r[i].m`, `sb = r[i].s`,
`fa = r[i+1].f`; and the reactant gate anchors the last reactant's `m` and
`s` domains around the sequestered flux in the core complex. -/
theorem C5_reactant_gate (p : List Species) (c : Nat) (r0 : Species) (rtl : List Species) :
    junctions (r0 :: rtl) = some (junctionsSpec (r0 :: rtl)) ∧
    (junctionsSpec (r0 :: rtl)).length = (r0 :: rtl).length - 1 ∧
    (∀ i, (junctionsSpec (r0 :: rtl))[i]? = reactg (r0 :: rtl) i) ∧
    (∀ i ri ri1, (r0 :: rtl)[i]? = some ri → (r0 :: rtl)[i + 1]? = some ri1 →
      reactg (r0 :: rtl) i = some (reactgT ri ri1)) ∧
    (∀ x y, reactgT x y
      = (mkCx [SeqItem.dom x.m, SeqItem.dom x.s, SeqItem.dom y.f, SeqItem.brk]
              [StItem.opn, StItem.opn, StItem.opn, StItem.brk],
         mkCx [SeqItem.dom y.f.star, SeqItem.dom x.s.star, SeqItem.dom x.m.star]
              [StItem.cls, StItem.cls, StItem.cls],
         mkCx [SeqItem.dom x.m, SeqItem.dom x.s, SeqItem.dom y.f]
              [StItem.unp, StItem.unp, StItem.unp])) ∧
    srinivas_rgate (r0 :: rtl) p c
      = (some (rgateOutSpec r0 rtl (flCx (r0 :: rtl) p c)), (flux (r0 :: rtl) p c).2) := by
  refine ⟨junctions_eq _, junctionsSpec_length _, fun i => junctionsSpec_getElem _ i,
    ?_, fun x y => rfl, srinivas_rgate_eq r0 rtl p c⟩
  intro i ri ri1 h1 h2
  unfold reactg
  rw [h1, h2]
  rfl

/-- Witness for C5 at the concrete reactant list `[spA, spB]`. -/
theorem C5_reactant_gate_witness :
    (junctionsSpec [spA, spB])[0]? = reactg [spA, spB] 0 ∧
    reactg [spA, spB] 0 = some (reactgT spA spB) ∧
    junctions [spA, spB] = some (junctionsSpec [spA, spB]) :=
  ⟨(C5_reactant_gate [spC] 9 spA [spB]).2.2.1 0,
   (C5_reactant_gate [spC] 9 spA [spB]).2.2.2.1 0 spA spB rfl rfl,
   (C5_reactant_gate [spC] 9 spA [spB]).1⟩

/-- Modelled from the spec: strand segmentation of a complex.  The spec's
complexes consist of strands that are ordered sequences of domains, so this
splits a sequence-item list at the `+` markers. -/
def segs : List SeqItem → List (List Domain)
  | [] => [[]]
  | SeqItem.dom d :: rest =>
    match segs rest with
    | s :: ss => (d :: s) :: ss
    | [] => [[d]]
  | SeqItem.brk :: rest => [] :: segs rest

/-- Modelled from the spec: the strands of a complex.  The spec's strands
are ordered sequences of domains, so empty segments arising from splicing
empty fragments next to `+` separators are not strands. -/
def strandsOf (x : CxE) : List (List Domain) :=
  (segs x.seq).filter (fun s => !s.isEmpty)

/-- C10 (amended): a single-reactant reaction produces no `reactg` junction
triples at all, so the reactant gate degenerates to the 2-strand core
complex built entirely from that one reactant's `f`, `m`, `s` domains plus
the flux; the second output complex — the release-strand group `l` — is
empty, so no separate release strand accompanies the core. -/
theorem C10_single_reactant (x : Species) (p : List Species) (c : Nat) :
    junctions [x] = some [] ∧
    srinivas_rgate [x] p c
      = (some (rgateOutSpec x [] (flCx [x] p c)), (flux [x] p c).2) ∧
    (rgateOutSpec x [] (flCx [x] p c)).cxs.length = 2 ∧
    strandsOf ((rgateOutSpec x [] (flCx [x] p c)).cxs.headD (mkCx [] []))
      = [x.m :: x.s :: seqDoms (flCx [x] p c).seq, [x.s.star, x.m.star, x.f.star]] ∧
    ((rgateOutSpec x [] (flCx [x] p c)).cxs.getLast?.map CxE.seq) = some [] := by
  refine ⟨rfl, srinivas_rgate_eq x [] p c, rfl, ?_, rfl⟩
  cases p with
  | nil => rfl
  | cons q tl => cases tl <;> rfl

/-- Counterexample for C10 as stated: at the concrete single-reactant
reaction `[spA] -> [spB]`, the gate output is the 9-item core complex
together with an output complex holding zero items — there is no separate
release strand. -/
theorem C10_counterexample :
    ((srinivas_rgate [spA] [spB] 9).1.map (fun g => g.cxs.map (fun x2 => x2.seq.length)))
      = some [9, 0] := by decide

/-- Counterexample for C6 as stated: compiling `{reactants: [], products:
[spA, spB]}` yields four complexes; counting the history-tagged (prodg)
domains shows exactly ONE prodg contribution in the product gate (in the
top complex and in the helper), not two — `prodg` is mapped over
`tail(products)` only. -/
theorem C6_counterexample :
    (rxn ⟨[], [spA, spB], false⟩ 9).1.map (fun out =>
        out.map (fun x => (cxDoms x).countP (fun d => d.hist && !d.comp)))
      = some [0, 0, 1, 1] ∧ (1 : Nat) ≠ 2 := by
  decide

/-- C6 (amended): compiling `{reactants: [], products: [X, Y]}` uses the
`srinivas_rgate_r0` builder (synthesizing a fresh fuel species triple) and
the multi-product `srinivas_pgate` builder, and the resulting product gate
contains exactly one `prodg` sub-complex contribution — one per product
after the first, here the single product `Y`. -/
theorem C6_r0_and_pgate (X Y : Species) (rev : Bool) (c : Nat) :
    rxn ⟨[], [X, Y], rev⟩ c
      = (some ((rgateR0OutSpec c (flCx [] [X, Y] (c + 3))).cxs
          ++ [pgTop (shortD (c + 2)) X [Y] (longD (c + 3)) (c + 4),
              pgHelp X [Y] (c + 4)]), c + 5) ∧
    (mapAlloc prodg [Y] (c + 4)).1 = [(prodg Y (c + 4)).1] ∧
    (mapAlloc prodg [Y] (c + 4)).1.length = 1 := by
  refine ⟨?_, rfl, rfl⟩
  have h := rxn_eq_nil_many X Y [] rev c
  simpa using h

theorem mapAlloc_prodg_len (l : List Species) (c : Nat) :
    (mapAlloc prodg l c).1.length = l.length := by
  induction l generalizing c with
  | nil => rfl
  | cons x rest ih => simp [mapAlloc, ih]

/-- Counterexample for C7 as stated: at the concrete reaction
`[spA] -> [spB, spC]`, the domain behind which the product gate's top
complex exposes the first product's triple is the flux handle `longD 9`,
and it is NOT tagged as a history domain. -/
theorem C7_counterexample :
    ((rxn ⟨[spA], [spB, spC], false⟩ 9).1.getD [])[2]?.map (fun x => x.seq.take 2)
      = some [SeqItem.dom (longD 9), SeqItem.dom spB.f] ∧
    (longD 9).hist = false := by
  decide

/-- C7 (amended): for every reaction with two or more products, the product
gate's top complex exposes the first product's formal triple behind the
flux handle `h` — a fresh long domain allocated once per reaction, which is
NOT tagged as a history domain — and contains one `prodg` sub-complex per
remaining product (one per element of `products[1:]`), each of which
allocates a fresh long domain that IS tagged as a history domain. -/
theorem C7_flux_handle_untagged (px py : Species) (ptl2 : List Species)
    (rev : Bool) (c : Nat) :
    (∀ r0 rtl, rxn ⟨r0 :: rtl, px :: py :: ptl2, rev⟩ c
      = (some ((rgateOutSpec r0 rtl (flCx (r0 :: rtl) (px :: py :: ptl2) c)).cxs
          ++ [pgTop ((rtl.getLastD r0).s) px (py :: ptl2) (longD c) (c + 1),
              pgHelp px (py :: ptl2) (c + 1)]), (c + 1) + (py :: ptl2).length)) ∧
    (rxn ⟨[], px :: py :: ptl2, rev⟩ c
      = (some ((rgateR0OutSpec c (flCx [] (px :: py :: ptl2) (c + 3))).cxs
          ++ [pgTop (shortD (c + 2)) px (py :: ptl2) (longD (c + 3)) (c + 4),
              pgHelp px (py :: ptl2) (c + 4)]), (c + 4) + (py :: ptl2).length)) ∧
    (∀ sa hf cp, ∃ rest restSt,
      (pgTop sa px (py :: ptl2) hf cp).seq
        = [SeqItem.dom hf, SeqItem.dom px.f, SeqItem.dom px.m, SeqItem.dom px.s,
           SeqItem.brk] ++ rest ∧
      (pgTop sa px (py :: ptl2) hf cp).st
        = [StItem.opn, StItem.opn, StItem.unp, StItem.unp, StItem.brk] ++ restSt) ∧
    (∀ cc, (longD cc).hist = false ∧ (longD cc).kind = DKind.long) ∧
    (∀ cp, (mapAlloc prodg (py :: ptl2) cp).1.length = (py :: ptl2).length) ∧
    (∀ cp t, t ∈ (mapAlloc prodg (py :: ptl2) cp).1 →
      ∃ sp cc, sp ∈ py :: ptl2 ∧ cp ≤ cc ∧ cc < cp + (py :: ptl2).length ∧
        t = (prodg sp cc).1 ∧ (histLongD cc).hist = true ∧
        (histLongD cc).kind = DKind.long) := by
  refine ⟨fun r0 rtl => rxn_eq_cons_many r0 rtl px py ptl2 rev c,
    rxn_eq_nil_many px py ptl2 rev c,
    fun sa hf cp => ⟨_, _, rfl, rfl⟩,
    fun cc => ⟨rfl, rfl⟩,
    fun cp => mapAlloc_prodg_len (py :: ptl2) cp,
    ?_⟩
  intro cp t ht
  obtain ⟨sp, cc, hsp, hc1, hc2, rfl⟩ := mapAlloc_prodg_mem_strong (py :: ptl2) cp t ht
  exact ⟨sp, cc, hsp, hc1, hc2, rfl, rfl, rfl⟩

/-- Witness for C7's amended statement at a concrete two-product input. -/
theorem C7_flux_handle_untagged_witness :
    ∃ sp cc, sp ∈ [spC] ∧ 11 ≤ cc ∧ cc < 11 + ([spB, spC].drop 1).length ∧
      (prodg spC 11).1 = (prodg sp cc).1 ∧ (histLongD cc).hist = true ∧
      (histLongD cc).kind = DKind.long := by
  have h := (C7_flux_handle_untagged spB spC [] false 10).2.2.2.2.2
    11 (prodg spC 11).1 (by decide)
  simpa using h

/-- Counterexample for C8 as stated: the reaction with zero reactants and
zero products compiles without any error to a NON-empty complex set (the
`srinivas_rgate_r0` core and fuel strand); it is not treated as a
malformed-reaction failure. -/
theorem C8_counterexample :
    (rxn ⟨[], [], false⟩ 0).1.map List.length = some 2 ∧
    (rxn ⟨[], [], false⟩ 0).1 ≠ none ∧
    (rxn ⟨[], [], false⟩ 0).1 ≠ some [] := by
  decide

theorem reactPart_hist (r : Rxn) (c : Nat) (g : RGateOut) (c1 : Nat)
    (hp : r.products ≠ []) (hg : reactPart r c = (some g, c1)) :
    ∃ h2, histOf g = some h2 := by
  obtain ⟨reactants, products, rev⟩ := r
  rcases products with _ | ⟨px, ptl⟩
  · exact absurd rfl hp
  · cases reactants with
    | nil =>
      rw [show reactPart ⟨[], px :: ptl, rev⟩ c
          = srinivas_rgate_r0 [] (px :: ptl) c from rfl, srinivas_rgate_r0_eq] at hg
      simp only [Prod.mk.injEq, Option.some.injEq] at hg
      obtain ⟨hg1, hg2⟩ := hg
      subst hg1
      exact ⟨longD (c + 3), histOf_flCx _ [] (px :: ptl) (c + 3) rfl (by simp)⟩
    | cons r0 rtl =>
      rw [show reactPart ⟨r0 :: rtl, px :: ptl, rev⟩ c
          = srinivas_rgate (r0 :: rtl) (px :: ptl) c from rfl, srinivas_rgate_eq] at hg
      simp only [Prod.mk.injEq, Option.some.injEq] at hg
      obtain ⟨hg1, hg2⟩ := hg
      subst hg1
      exact ⟨longD c, histOf_flCx _ (r0 :: rtl) (px :: ptl) c rfl (by simp)⟩

/-- C8 (amended): for every combination of reactant count in 0/1/many and
product count in 0/1/many, the compiler selects the corresponding
reactant-gate and product-gate builder variant and produces a non-empty
complex set — INCLUDING the combination of zero reactants and zero
products, which compiles without error to the `srinivas_rgate_r0` core and
fuel complexes (there is no malformed-reaction error in the scheme). -/
theorem C8_arity_coverage (r : Rxn) (c : Nat) :
    (∃ out c2, rxn r c = (some out, c2) ∧ out ≠ []) ∧
    (r.reactants = [] → reactPart r c = srinivas_rgate_r0 r.reactants r.products c) ∧
    (r.reactants ≠ [] → reactPart r c = srinivas_rgate r.reactants r.products c) ∧
    (∀ g c1, reactPart r c = (some g, c1) → r.products ≠ [] →
      ∃ h2, histOf g = some h2 ∧
        prodPart r g c1 = (if r.products.length = 1
          then srinivas_pgate_p1 (anchorOf r g) r.products h2 c1
          else srinivas_pgate (anchorOf r g) r.products h2 c1)) ∧
    (∀ g c1, reactPart r c = (some g, c1) → r.products = [] →
      prodPart r g c1 = (some [], c1)) ∧
    (r.reactants = [] → r.products = [] →
      rxn r c = (some (rgateR0OutSpec c (flCx [] [] (c + 3))).cxs, c + 3) ∧
      (rgateR0OutSpec c (flCx [] [] (c + 3))).cxs ≠ []) := by
  obtain ⟨reactants, products, rev⟩ := r
  refine ⟨?_, ?_, ?_, ?_, ?_, ?_⟩
  · rcases reactants with _ | ⟨r0, rtl⟩ <;> rcases products with _ | ⟨px, _ | ⟨py, ptl2⟩⟩
    · exact ⟨_, _, rxn_eq_nil_nil rev c, by simp [rgateR0OutSpec]⟩
    · exact ⟨_, _, rxn_eq_nil_one px rev c, by simp [rgateR0OutSpec]⟩
    · exact ⟨_, _, rxn_eq_nil_many px py ptl2 rev c, by simp [rgateR0OutSpec]⟩
    · exact ⟨_, _, rxn_eq_cons_nil r0 rtl rev c, by simp [rgateOutSpec]⟩
    · exact ⟨_, _, rxn_eq_cons_one r0 rtl px rev c, by simp [rgateOutSpec]⟩
    · exact ⟨_, _, rxn_eq_cons_many r0 rtl px py ptl2 rev c, by simp [rgateOutSpec]⟩
  · intro hre
    subst hre
    rfl
  · intro hre
    rcases reactants with _ | ⟨r0, rtl⟩
    · exact absurd rfl hre
    · rfl
  · intro g c1 hg hp
    obtain ⟨h2, hh⟩ := reactPart_hist ⟨reactants, products, rev⟩ c g c1 hp hg
    refine ⟨h2, ?_⟩
    unfold prodPart
    rw [hh]
    have hp0 : (products.length == 0) = false := by
      rcases products with _ | ⟨px, ptl⟩
      · exact absurd rfl hp
      · simp
    rw [show ((⟨reactants, products, rev⟩ : Rxn).products.length == 0) = false from hp0]
    simp only [Bool.false_eq_true, if_false]
    by_cases h1 : products.length = 1
    · rw [if_pos h1, show ((⟨reactants, products, rev⟩ : Rxn).products.length == 1) = true
        from by simp [h1]]
      simp
    · rw [if_neg h1, show ((⟨reactants, products, rev⟩ : Rxn).products.length == 1) = false
        from by simp [h1]]
      simp
  · intro g c1 hg hp
    subst hp
    rfl
  · intro hre hp
    subst hre
    subst hp
    exact ⟨rxn_eq_nil_nil rev c, by simp [rgateR0OutSpec]⟩

/-- Witness for C8 at the zero-reactant zero-product corner case. -/
theorem C8_arity_coverage_witness :
    (∃ out c2, rxn ⟨[], [], false⟩ 0 = (some out, c2) ∧ out ≠ []) ∧
    reactPart ⟨[], [], false⟩ 0 = srinivas_rgate_r0 [] [] 0 ∧
    (rxn ⟨[], [], false⟩ 0 = (some (rgateR0OutSpec 0 (flCx [] [] 3)).cxs, 3) ∧
      (rgateR0OutSpec 0 (flCx [] [] 3)).cxs ≠ []) :=
  ⟨(C8_arity_coverage ⟨[], [], false⟩ 0).1,
   (C8_arity_coverage ⟨[], [], false⟩ 0).2.1 rfl,
   (C8_arity_coverage ⟨[], [], false⟩ 0).2.2.2.2.2 rfl rfl⟩

/-- C4: every complex in the output of compiling any CRN is well formed —
the checker `runChk` certifies that every paired position connects two
mutually complementary domains (`d` with `d*`), that the bracket nesting is
balanced, and that the structure list matches the strand content position
by position (same length, strand breaks aligned) — and, provided the input
species' domain names are below the starting counter and name-injective,
no two distinct domains of the output share a name: a name determines the
domain up to complementation. -/
theorem C4_output_invariants (crn : List Rxn) (c0 : Nat) (out : List CxE) (cend : Nat)
    (hin : ∀ d ∈ crnDoms crn, d.id < c0) (hinj : NameInj (crnDoms crn))
    (h : main crn c0 = (some out, cend)) :
    (∀ x ∈ out, wfCx x) ∧ NameInj (outDoms out) := by
  refine ⟨main_wf crn c0 out cend h, ?_⟩
  obtain ⟨hc, F, hF, hp⟩ := rxnAll_doms (irrev_reactions crn) c0 out cend h
  intro d1 hd1 d2 hd2 hid
  rcases hp d1 hd1 with ⟨r1, hr1, hb1⟩ | ⟨ha1, ha2, ha3⟩
  · rcases hp d2 hd2 with ⟨r2, hr2, hb2⟩ | ⟨hc1, hc2, hc3⟩
    · have m1 : d1.base ∈ crnDoms crn := irrev_doms r1 crn hr1 _ hb1
      have m2 : d2.base ∈ crnDoms crn := irrev_doms r2 crn hr2 _ hb2
      have h3 := hinj d1.base m1 d2.base m2 (by simpa using hid)
      simpa using h3
    · exfalso
      have hlt := hin d1.base (irrev_doms r1 crn hr1 _ hb1)
      have hlt2 : d1.id < c0 := by simpa using hlt
      omega
  · rcases hp d2 hd2 with ⟨r2, hr2, hb2⟩ | ⟨hc1, hc2, hc3⟩
    · exfalso
      have hlt := hin d2.base (irrev_doms r2 crn hr2 _ hb2)
      have hlt2 : d2.id < c0 := by simpa using hlt
      omega
    · rw [ha3, hc3, hid]

/-- Witness for C4 at the concrete CRN `[spA -> spB]` with counter 9. -/
theorem C4_output_invariants_witness :
    (∀ d ∈ crnDoms [⟨[spA], [spB], false⟩], d.id < 9) ∧
    NameInj (crnDoms [⟨[spA], [spB], false⟩]) ∧
    (∀ x ∈ ((main [⟨[spA], [spB], false⟩] 9).1.getD []), wfCx x) ∧
    NameInj (outDoms ((main [⟨[spA], [spB], false⟩] 9).1.getD [])) := by
  have h : main [(⟨[spA], [spB], false⟩ : Rxn)] 9
      = (some ((main [(⟨[spA], [spB], false⟩ : Rxn)] 9).1.getD []),
         (main [(⟨[spA], [spB], false⟩ : Rxn)] 9).2) := by decide
  have h2 := C4_output_invariants [⟨[spA], [spB], false⟩] 9
    ((main [(⟨[spA], [spB], false⟩ : Rxn)] 9).1.getD [])
    (main [(⟨[spA], [spB], false⟩ : Rxn)] 9).2 (by decide) (by decide) h
  exact ⟨by decide, by decide, h2.1, h2.2⟩

end Srinivas

